import Mathlib

/-!
# Verification of the word-hunter solver

A shallow embedding of the `word-hunter` repository (Rust): a word-search
("word hunt") solver.  Rust `String`s are modelled as `List Char`; Rust's
byte-oriented `String::len` is modelled by `utf8Len` (the sum of the UTF-8
byte sizes of the characters).  The board is a 2D list of cell tokens
(each cell an arbitrary string, as in the source).

Two parallel embeddings of the solver are given:

* `visit` / `find_all_words`: total functions where slice indexing is
  modelled with `getD`-style defaulted access (the defaults are proved
  irrelevant for well-formed inputs);
* `visitChk` / `find_all_wordsChk`: `Option`-valued versions in which every
  Rust operation that can panic (out-of-bounds slice indexing, `usize`
  subtraction underflow, `String::truncate` off a char boundary) returns
  `none`.  `find_all_wordsChk_eq` proves the two agree (and hence that no
  panic occurs) on non-empty rectangular boards.

Rust's recursion is modelled with a fuel parameter; `find_all_words` passes
`rows * cols + 1` fuel, which the checked/unchecked equivalence proves
sufficient (the checked version returns `none` on fuel exhaustion).
-/

/-- A Rust string, modelled as its list of characters. -/
abbrev RStr := List Char

/-- The game board: a 2D vector of cell tokens (`Vec<Vec<String>>`). -/
abbrev Board := List (List RStr)

/-- Rust `String::len`: the length of the string in UTF-8 bytes. -/
def utf8Len (w : RStr) : Nat := (w.map Char.utf8Size).sum

/-!
## The trie

Modelled from the spec: `trie_node.rs` is not under `src/` (only its
callers in `solver.rs` and `lib.rs` are), so `TrieNode` and its operations
`insert`, `has_prefix` (here `hasPref`) and `is_word` are modelled from
spec §4.1: children are a map from single-character tokens to child nodes,
`is_word` flags a complete inserted word, `insert` creates intermediate
nodes as needed and marks the terminal node, `has_prefix` follows the
query's tokens from the root, `is_word` additionally checks the flag.
`clone()` is a deep copy, which in this purely functional model is the
identity.
-/

/-- Modelled from the spec: a trie node, with a `children` map from
character tokens to child nodes and an is-a-complete-word flag. -/
inductive TrieNode : Type where
  | node (children : List (Char × TrieNode)) (flag : Bool) : TrieNode

/-- The children map of a trie node. -/
def TrieNode.children : TrieNode → List (Char × TrieNode)
  | .node cs _ => cs

/-- The is-a-complete-word flag of a trie node. -/
def TrieNode.flag : TrieNode → Bool
  | .node _ b => b

/-- Modelled from the spec: a fresh, empty trie node. -/
def TrieNode.new : TrieNode := .node [] false

/-- Look a token up in a children map. -/
def findChild : List (Char × TrieNode) → Char → Option TrieNode
  | [], _ => none
  | (c', t) :: rest, c => if c' = c then some t else findChild rest c

/-- Replace the child at a token, or append a binding for it. -/
def setChild : List (Char × TrieNode) → Char → TrieNode → List (Char × TrieNode)
  | [], c, t => [(c, t)]
  | (c', t') :: rest, c, t =>
      if c' = c then (c, t) :: rest else (c', t') :: setChild rest c t

/-- Modelled from the spec: `insert` adds a word token-by-token, creating
intermediate nodes as needed and marking the terminal node's flag. -/
def TrieNode.insert : TrieNode → RStr → TrieNode
  | t, [] => .node t.children true
  | t, c :: rest =>
      let child := (findChild t.children c).getD TrieNode.new
      .node (setChild t.children c (child.insert rest)) t.flag

/-- Modelled from the spec: `has_prefix` returns true iff following the
query's tokens from the root never fails to find a child (true on `[]`). -/
def TrieNode.hasPref : TrieNode → RStr → Bool
  | _, [] => true
  | t, c :: rest =>
      match findChild t.children c with
      | none => false
      | some child => child.hasPref rest

/-- Modelled from the spec: `is_word` returns true iff the node reached by
following the query's tokens exists and has its flag set. -/
def TrieNode.is_word : TrieNode → RStr → Bool
  | t, [] => t.flag
  | t, c :: rest =>
      match findChild t.children c with
      | none => false
      | some child => child.is_word rest

/-!
## The solver (`src/solver.rs`)
-/

/-- `DIRECTIONS` from `solver.rs`: all valid directions for locating
adjacent characters. -/
def DIRECTIONS : List (Int × Int) :=
  [(-1, -1), (-1, 0), (-1, 1), (0, -1), (0, 1), (1, -1), (1, 0), (1, 1)]

/-- `Solver::in_bounds`: `row < board.len() && col < board[0].len()`.
The `&&` short-circuits, so `board[0]` is only reached when
`row < board.len()`, which forces the board to be non-empty; hence this
function never panics and is modelled totally (`getD 0 []` is only
reached in the defended case). -/
def in_bounds (board : Board) (row col : Nat) : Bool :=
  decide (row < board.length) && decide (col < (board.getD 0 []).length)

/-- Defaulted 2D indexing, modelling `m[r][c]` of the Rust source in the
total embedding. -/
def get2 (m : List (List α)) (r c : Nat) (d : α) : α :=
  (m.getD r []).getD c d

/-- 2D update, modelling `m[r][c] = x` of the Rust source in the total
embedding (out-of-range indices leave the matrix unchanged; the checked
embedding `set2?` rules that case out). -/
def set2 (m : List (List α)) (r c : Nat) (x : α) : List (List α) :=
  m.set r ((m.getD r []).set c x)

/-- The mutable state threaded through the search: the `visited` matrix,
the `current_word` accumulator and the `words` result set. -/
structure SearchState where
  visited : List (List Bool)
  current_word : RStr
  words : List RStr
deriving DecidableEq

/-- `HashSet::insert`: the result set is modelled as a duplicate-free list;
inserting an element already present is a no-op. -/
def hsInsert (ws : List RStr) (w : RStr) : List RStr :=
  if w ∈ ws then ws else ws ++ [w]

/-- `String::truncate (k)` in the total embedding: keep the longest prefix
of the string that fits in `k` UTF-8 bytes.  (When `k` falls on a char
boundary — the only case reached from well-formed states, and the only
case where Rust does not panic — this keeps exactly the first `k` bytes.) -/
def truncateBytes : RStr → Nat → RStr
  | [], _ => []
  | c :: cs, k => if c.utf8Size ≤ k then c :: truncateBytes cs (k - c.utf8Size) else []

/-- `Solver::visit` (total embedding), with a fuel parameter for the
recursion (`find_all_words` passes provably sufficient fuel).  Mirrors the
source: bounds/visited guard, mark the cell and push its token, prefix
pruning, word recording, recursion into the eight `DIRECTIONS` offsets
guarded by the two non-negativity checks, then the unconditional
backtracking epilogue (unmark the cell, truncate the accumulator by the
cell's byte length). -/
def visit (t : TrieNode) (board : Board) :
    Nat → Nat → Nat → SearchState → SearchState
  | 0, _, _, st => st
  | fuel + 1, row, col, st =>
    if !(in_bounds board row col) || get2 st.visited row col false then st
    else
      let cell := get2 board row col []
      let visited1 := set2 st.visited row col true
      let cw1 := st.current_word ++ cell
      let st1 : SearchState :=
        if t.hasPref cw1 then
          let words1 := if t.is_word cw1 then hsInsert st.words cw1 else st.words
          DIRECTIONS.foldl
            (fun s d =>
              let nr : Int := (row : Int) + d.1
              let nc : Int := (col : Int) + d.2
              if 0 ≤ nr ∧ 0 ≤ nc then visit t board fuel nr.toNat nc.toNat s else s)
            ⟨visited1, cw1, words1⟩
        else ⟨visited1, cw1, st.words⟩
      ⟨set2 st1.visited row col false,
       truncateBytes st1.current_word (utf8Len st1.current_word - utf8Len cell),
       st1.words⟩

/-- A character comparison mirroring Rust `char` ordering (by code point). -/
def cmpChar (a b : Char) : Ordering :=
  if a < b then .lt else if a = b then .eq else .gt

/-- Lexicographic string comparison, mirroring Rust's `String` ordering
(UTF-8 byte order coincides with per-character code-point order). -/
def cmpWord : RStr → RStr → Ordering
  | [], [] => .eq
  | [], _ :: _ => .lt
  | _ :: _, [] => .gt
  | a :: as_, b :: bs => (cmpChar a b).then (cmpWord as_ bs)

/-- The sort comparator of `find_all_words`:
`b.len().cmp(&a.len()).then(a.cmp(b))` — descending byte length, ties by
ascending lexicographic order. -/
def rustCmp (a b : RStr) : Ordering :=
  (compare (utf8Len b) (utf8Len a)).then (cmpWord a b)

/-- The non-strict order induced by the sort comparator. -/
def wordLe (a b : RStr) : Prop := rustCmp a b ≠ .gt

instance : DecidableRel wordLe := fun a b =>
  inferInstanceAs (Decidable (rustCmp a b ≠ .gt))

/-- The post-processing of `find_all_words`: keep the words of byte length
at least 3, then sort with the comparator. -/
def postSort (ws : List RStr) : List RStr :=
  (ws.filter (fun w => decide (3 ≤ utf8Len w))).insertionSort wordLe

/-- The raw word set collected by the double loop of `find_all_words`
(total embedding), before filtering and sorting.  The `visited` matrix and
`current_word` accumulator are allocated once and threaded through every
start cell, as in the source. -/
def searchWords (t : TrieNode) (board : Board) : List RStr :=
  let rows := board.length
  let cols := (board.getD 0 []).length
  let init : SearchState :=
    ⟨List.replicate rows (List.replicate cols false), [], []⟩
  ((List.range rows).foldl
    (fun s row =>
      (List.range cols).foldl
        (fun s' col => visit t board (rows * cols + 1) row col s') s)
    init).words

/-- `Solver::find_all_words` (total embedding): run the search from every
cell, then filter to byte length ≥ 3 and sort. -/
def find_all_words (t : TrieNode) (board : Board) : List RStr :=
  postSort (searchWords t board)

/-- `solve_words` from `lib.rs`: constructs a solver (whose `Solver::new`
clones the process-wide dictionary; cloning is the identity in this
functional model, so the dictionary is a parameter) and calls
`find_all_words`. -/
def solve_words (t : TrieNode) (board : Board) : List RStr :=
  find_all_words t board

/-!
## The checked (panic-aware) embedding
-/

/-- Checked 2D read: `m[r][c]`, `none` on an out-of-bounds panic. -/
def get2? (m : List (List α)) (r c : Nat) : Option α :=
  match m.get? r with
  | none => none
  | some rowL => rowL.get? c

/-- Checked 2D write: `m[r][c] = x`, `none` on an out-of-bounds panic. -/
def set2? (m : List (List α)) (r c : Nat) (x : α) : Option (List (List α)) :=
  match m.get? r with
  | none => none
  | some rowL =>
      if c < rowL.length then some (m.set r (rowL.set c x)) else none

/-- Checked `String::truncate (k)`: `none` when `k` is neither past the end
of the string nor on a character boundary (Rust panics there). -/
def truncateBytes? : RStr → Nat → Option RStr
  | _, 0 => some []
  | [], _ + 1 => some []
  | c :: cs, k + 1 =>
      if c.utf8Size ≤ k + 1 then
        (truncateBytes? cs (k + 1 - c.utf8Size)).map (fun w => c :: w)
      else none

/-- `Solver::visit`, checked embedding: every potentially panicking Rust
operation (slice indexing, `usize` subtraction, `truncate`) is `Option`al,
and exhausting the fuel is `none` (so `some` results are fuel-independent
behaviours of the original unbounded recursion). -/
def visitChk (t : TrieNode) (board : Board) :
    Nat → Nat → Nat → SearchState → Option SearchState
  | 0, _, _, _ => none
  | fuel + 1, row, col, st =>
    if !(in_bounds board row col) then some st
    else
      match get2? st.visited row col with
      | none => none
      | some visHere =>
        if visHere then some st
        else
          match get2? board row col, set2? st.visited row col true with
          | none, _ => none
          | _, none => none
          | some cell, some visited1 =>
            let cw1 := st.current_word ++ cell
            let st1opt : Option SearchState :=
              if t.hasPref cw1 then
                let words1 := if t.is_word cw1 then hsInsert st.words cw1 else st.words
                DIRECTIONS.foldl
                  (fun s d =>
                    match s with
                    | none => none
                    | some s' =>
                      let nr : Int := (row : Int) + d.1
                      let nc : Int := (col : Int) + d.2
                      if 0 ≤ nr ∧ 0 ≤ nc then visitChk t board fuel nr.toNat nc.toNat s'
                      else some s')
                  (some ⟨visited1, cw1, words1⟩)
              else some ⟨visited1, cw1, st.words⟩
            match st1opt with
            | none => none
            | some st1 =>
              match set2? st1.visited row col false with
              | none => none
              | some visited2 =>
                if utf8Len cell ≤ utf8Len st1.current_word then
                  match truncateBytes? st1.current_word
                      (utf8Len st1.current_word - utf8Len cell) with
                  | none => none
                  | some cw2 => some ⟨visited2, cw2, st1.words⟩
                else none

/-- `Solver::find_all_words`, checked embedding: `board[0].len()` panics
(`none`) on an empty board; otherwise the double loop over all start
cells, then the filter-and-sort post-processing. -/
def find_all_wordsChk (t : TrieNode) (board : Board) : Option (List RStr) :=
  match board.get? 0 with
  | none => none
  | some row0 =>
    let rows := board.length
    let cols := row0.length
    let init : SearchState :=
      ⟨List.replicate rows (List.replicate cols false), [], []⟩
    match (List.range rows).foldl
        (fun s row =>
          (List.range cols).foldl
            (fun s' col =>
              match s' with
              | none => none
              | some stt => visitChk t board (rows * cols + 1) row col stt) s)
        (some init) with
    | none => none
    | some final => some (postSort final.words)

/-!
## The host boundary (`src/lib.rs`)
-/

/-- Strip one trailing carriage return, as Rust's `str::lines` does from
every `\n`-terminated line. -/
def stripCr (l : RStr) : RStr :=
  if l.getLast? = some '\r' then l.dropLast else l

/-- Split a string at every `'\n'` (keeping empty segments). -/
def splitNl : RStr → List RStr
  | [] => [[]]
  | c :: cs =>
      if c = '\n' then [] :: splitNl cs
      else
        match splitNl cs with
        | [] => [[c]]
        | l :: ls => (c :: l) :: ls

/-- Finish `str::lines`: every segment but the last was `\n`-terminated and
has a trailing `'\r'` stripped; a final empty segment (from a trailing
newline, or an empty input) yields no line. -/
def finishLines : List RStr → List RStr
  | [] => []
  | [last] => if last = [] then [] else [last]
  | p :: rest => stripCr p :: finishLines rest

/-- Rust `str::lines`. -/
def rustLines (s : RStr) : List RStr := finishLines (splitNl s)

/-- ASCII-level model of Rust `str::to_lowercase`: character-wise
lowercasing of the basic Latin letters (`Char.toLower`).  Rust's function
applies the full Unicode lowercase mapping, which on ASCII text coincides
with this map exactly (A–Z to a–z, all other ASCII characters fixed, no
length change); outside ASCII the two differ, so the theorems that reach
this function restrict the file contents to ASCII. -/
def lowerStr (w : RStr) : RStr := w.map Char.toLower

/-- `load_dictionary` from `lib.rs`.  The filesystem is a parameter
`fs : RStr → Option RStr` giving each path's contents (`none` = no file
there; `fs::exists` then yields `false` and the function returns without
touching the dictionary).  Otherwise the contents are split into lines and
every line is lowercased and inserted. -/
def load_dictionary (fs : RStr → Option RStr) (path : RStr) (dict : TrieNode) :
    TrieNode :=
  match fs path with
  | none => dict
  | some contents =>
      (rustLines contents).foldl (fun d w => d.insert (lowerStr w)) dict

/-- Following the spec's words (for comparison with `load_dictionary`):
"inserts each non-empty line — and only the non-empty lines — as a word". -/
def load_dictionary_spec (fs : RStr → Option RStr) (path : RStr)
    (dict : TrieNode) : TrieNode :=
  match fs path with
  | none => dict
  | some contents =>
      ((rustLines contents).filter (fun w => !w.isEmpty)).foldl
        (fun d w => d.insert (lowerStr w)) dict

/-!
## Paths on the board
-/

/-- A coordinate is on the board (row within the row count, column within
the width `board[0].len()`). -/
def inBoardP (board : Board) (rc : Nat × Nat) : Prop :=
  rc.1 < board.length ∧ rc.2 < (board.getD 0 []).length

instance (board : Board) (rc : Nat × Nat) : Decidable (inBoardP board rc) :=
  inferInstanceAs (Decidable (rc.1 < board.length ∧ rc.2 < (board.getD 0 []).length))

/-- Two coordinates are 8-directionally adjacent: their offset is one of
the solver's `DIRECTIONS`. -/
def adjacentP (p q : Nat × Nat) : Prop :=
  ((q.1 : Int) - (p.1 : Int), (q.2 : Int) - (p.2 : Int)) ∈ DIRECTIONS

instance (p q : Nat × Nat) : Decidable (adjacentP p q) :=
  inferInstanceAs (Decidable
    (((q.1 : Int) - (p.1 : Int), (q.2 : Int) - (p.2 : Int)) ∈ DIRECTIONS))

/-- A simple path on the board: pairwise-distinct in-bounds coordinates,
each 8-directionally adjacent to the previous one. -/
def IsPath (board : Board) (p : List (Nat × Nat)) : Prop :=
  p.Nodup ∧ (∀ rc ∈ p, inBoardP board rc) ∧ p.Chain' adjacentP

/-- A kernel-reduction-friendly decision procedure for adjacency chains
(Mathlib's generic `Chain'` instance is tactic-defined and does not
evaluate inside `decide`). -/
instance instDecChainAdj : ∀ (l : List (Nat × Nat)), Decidable (List.Chain' adjacentP l)
  | [] => isTrue List.chain'_nil
  | [q] => isTrue (List.chain'_singleton q)
  | p :: q :: rest =>
    haveI := instDecChainAdj (q :: rest)
    decidable_of_iff (adjacentP p q ∧ List.Chain' adjacentP (q :: rest))
      List.chain'_cons.symm

instance (board : Board) (p : List (Nat × Nat)) : Decidable (IsPath board p) :=
  inferInstanceAs (Decidable
    (p.Nodup ∧ (∀ rc ∈ p, inBoardP board rc) ∧ p.Chain' adjacentP))

/-- The word spelled by a path: the concatenation of its cells' tokens. -/
def spell (board : Board) (p : List (Nat × Nat)) : RStr :=
  (p.map (fun rc => get2 board rc.1 rc.2 [])).flatten

/-- The board is rectangular: every row has the width of row 0. -/
def Rect (board : Board) : Bool :=
  board.all (fun r => decide (r.length = (board.getD 0 []).length))

/-!
## Modelling notions used by the theorems
-/

/-- The state relation guaranteed by a `visit` call: `visited` and
`current_word` are restored, and `words` only accumulates. -/
def StepOK (st st' : SearchState) : Prop :=
  st'.visited = st.visited ∧ st'.current_word = st.current_word ∧
  (∀ w, w ∈ st.words → w ∈ st'.words) ∧ (st.words.Nodup → st'.words.Nodup)

/-- The per-direction step of `visit`'s neighbor loop, named so that the
recursion can be reasoned about; `visit_succ` shows `visit` unfolds to a
fold of this step. -/
def dirStep (t : TrieNode) (board : Board) (fuel row col : Nat)
    (s : SearchState) (d : Int × Int) : SearchState :=
  let nr : Int := (row : Int) + d.1
  let nc : Int := (col : Int) + d.2
  if 0 ≤ nr ∧ 0 ≤ nc then visit t board fuel nr.toNat nc.toNat s else s

/-- The matrix has the board's dimensions (row count and width). -/
def DimsOK (board : Board) (m : List (List Bool)) : Prop :=
  m.length = board.length ∧
    ∀ i, i < m.length → (m.getD i []).length = (board.getD 0 []).length

def countFalse1 (row : List Bool) : Nat := (row.filter (fun b => !b)).length

def countFalse (m : List (List Bool)) : Nat := (m.map countFalse1).sum

/-- The per-direction step of `visitChk`'s neighbor loop. -/
def dirStepChk (t : TrieNode) (board : Board) (fuel row col : Nat)
    (s : Option SearchState) (d : Int × Int) : Option SearchState :=
  match s with
  | none => none
  | some s' =>
    let nr : Int := (row : Int) + d.1
    let nc : Int := (col : Int) + d.2
    if 0 ≤ nr ∧ 0 ≤ nc then visitChk t board fuel nr.toNat nc.toNat s'
    else some s'

/-- The visited matrix marks exactly the cells of the path `p`. -/
def Marks (board : Board) (p : List (Nat × Nat)) (m : List (List Bool)) : Prop :=
  DimsOK board m ∧
    ∀ r c, r < board.length → c < (board.getD 0 []).length →
      (get2 m r c false = true ↔ (r, c) ∈ p)

/-- A word the search may legitimately report: an exact dictionary match
spelled by some non-empty simple path on the board. -/
def GoodWord (t : TrieNode) (board : Board) (w : RStr) : Prop :=
  t.is_word w = true ∧ ∃ p, p ≠ [] ∧ IsPath board p ∧ spell board p = w

/-!
## Concrete example inputs for witnesses and counterexamples
-/

/-- A dictionary holding just "tar". -/
def wTrie : TrieNode := TrieNode.new.insert ['t', 'a', 'r']

/-- The 1×3 board `t a r`. -/
def wBoard : Board := [[['t'], ['a'], ['r']]]

/-- A dictionary holding "tar" and "rat". -/
def w10Trie : TrieNode := (TrieNode.new.insert ['t', 'a', 'r']).insert ['r', 'a', 't']

/-- A dictionary holding the two-character word "éa" (3 UTF-8 bytes). -/
def c3Trie : TrieNode := TrieNode.new.insert ['é', 'a']

/-- The 1×2 board `é a`. -/
def c3Board : Board := [[['é'], ['a']]]

/-- A filesystem with one file "w" whose contents are "a\n\nb" (it has an
empty second line). -/
def c9fs : RStr → Option RStr :=
  fun p => if p = ['w'] then some ['a', '\n', '\n', 'b'] else none

/-- An empty filesystem: no path has a file. -/
def fsNone : RStr → Option RStr := fun _ => none

/-- The state `visit` returns when started on `wBoard` at the origin with
a fresh visited matrix: the word "tar" recorded, everything else restored. -/
def wC6res : SearchState := ⟨[[false, false, false]], [], [['t', 'a', 'r']]⟩

/-!
## List and matrix helper lemmas
-/

theorem set_getD_self (l : List α) (i : Nat) (d : α) : l.set i (l.getD i d) = l := by
  induction l generalizing i with
  | nil => rfl
  | cons a as ih =>
    cases i with
    | zero => simp [List.getD_cons_zero]
    | succ n => simp only [List.getD_cons_succ, List.set_cons_succ, ih]

theorem getD_set_eq (l : List α) (i : Nat) (a d : α) (h : i < l.length) :
    (l.set i a).getD i d = a := by
  rw [List.getD_eq_getElem?_getD, List.getElem?_set_self h]
  rfl

theorem getD_set_ne (l : List α) (i j : Nat) (a d : α) (h : i ≠ j) :
    (l.set i a).getD j d = l.getD j d := by
  rw [List.getD_eq_getElem?_getD, List.getElem?_set_ne h, ← List.getD_eq_getElem?_getD]

theorem set2_length (m : List (List α)) (r c : Nat) (x : α) :
    (set2 m r c x).length = m.length := by
  simp [set2]

theorem set2_row_length (m : List (List α)) (r c : Nat) (x : α) (i : Nat) :
    ((set2 m r c x).getD i []).length = (m.getD i []).length := by
  unfold set2
  by_cases hir : r = i
  · subst hir
    by_cases hr : r < m.length
    · rw [getD_set_eq _ _ _ _ hr, List.length_set]
    · rw [List.set_eq_of_length_le (Nat.le_of_not_lt hr)]
  · rw [getD_set_ne _ _ _ _ _ hir]

theorem get2_set2_eq (m : List (List α)) (r c : Nat) (x d : α)
    (hr : r < m.length) (hc : c < (m.getD r []).length) :
    get2 (set2 m r c x) r c d = x := by
  unfold get2 set2
  rw [getD_set_eq _ _ _ _ hr, getD_set_eq _ _ _ _ hc]

theorem get2_set2_ne (m : List (List α)) (r c r' c' : Nat) (x d : α)
    (h : ¬(r = r' ∧ c = c')) :
    get2 (set2 m r c x) r' c' d = get2 m r' c' d := by
  unfold get2 set2
  by_cases hr : r = r'
  · subst hr
    have hc : c ≠ c' := fun hc => h ⟨rfl, hc⟩
    by_cases hrl : r < m.length
    · rw [getD_set_eq _ _ _ _ hrl, getD_set_ne _ _ _ _ _ hc]
    · rw [List.set_eq_of_length_le (Nat.le_of_not_lt hrl)]
  · rw [getD_set_ne _ _ _ _ _ hr]

theorem set2_cancel (m : List (List Bool)) (r c : Nat)
    (h : get2 m r c false = false) :
    set2 (set2 m r c true) r c false = m := by
  by_cases hr : r < m.length
  · unfold set2
    rw [getD_set_eq _ _ _ _ hr, List.set_set, List.set_set]
    by_cases hc : c < (m.getD r []).length
    · unfold get2 at h
      have : (m.getD r []).set c false = (m.getD r []).set c ((m.getD r []).getD c false) := by
        rw [h]
      rw [this, set_getD_self, set_getD_self]
    · rw [List.set_eq_of_length_le (Nat.le_of_not_lt hc), set_getD_self]
  · unfold set2
    rw [List.set_eq_of_length_le (Nat.le_of_not_lt hr),
        List.set_eq_of_length_le (Nat.le_of_not_lt hr)]

theorem utf8Len_append (a b : RStr) : utf8Len (a ++ b) = utf8Len a + utf8Len b := by
  simp [utf8Len]

theorem truncateBytes_append (x y : RStr) :
    truncateBytes (x ++ y) (utf8Len x) = x := by
  induction x with
  | nil =>
    cases y with
    | nil => rfl
    | cons c cs =>
      simp only [List.nil_append, truncateBytes, utf8Len, List.map_nil, List.sum_nil]
      rw [if_neg (Nat.not_le_of_lt c.utf8Size_pos)]
  | cons a as_ ih =>
    simp only [List.cons_append, truncateBytes, utf8Len, List.map_cons, List.sum_cons]
    rw [if_pos (Nat.le_add_right _ _), Nat.add_sub_cancel_left]
    exact congrArg (a :: ·) ih

/-!
## The frame property of `visit`

`StepOK st st'` collects what one (or several chained) `visit` call(s)
guarantee about the state: the `visited` matrix and `current_word`
accumulator come back exactly as they were, and the word set only grows
(and stays duplicate-free).
-/

theorem StepOK.rfl (st : SearchState) : StepOK st st :=
  ⟨Eq.refl _, Eq.refl _, fun _ h => h, fun h => h⟩

theorem StepOK.trans {a b c : SearchState} (h₁ : StepOK a b) (h₂ : StepOK b c) :
    StepOK a c :=
  ⟨h₂.1.trans h₁.1, h₂.2.1.trans h₁.2.1,
   fun w hw => h₂.2.2.1 w (h₁.2.2.1 w hw),
   fun h => h₂.2.2.2 (h₁.2.2.2 h)⟩

theorem foldl_stepOK {β : Type} (f : SearchState → β → SearchState) (l : List β)
    (h : ∀ s b, b ∈ l → StepOK s (f s b)) (s : SearchState) :
    StepOK s (l.foldl f s) := by
  induction l generalizing s with
  | nil => exact StepOK.rfl s
  | cons b bs ih =>
    exact (h s b (List.mem_cons_self b bs)).trans
      (ih (fun s' b' hb' => h s' b' (List.mem_cons_of_mem b hb')) (f s b))

theorem hsInsert_mem (ws : List RStr) (w v : RStr) (h : v ∈ ws) :
    v ∈ hsInsert ws w := by
  unfold hsInsert
  split
  · exact h
  · exact List.mem_append_left _ h

theorem hsInsert_self_mem (ws : List RStr) (w : RStr) : w ∈ hsInsert ws w := by
  unfold hsInsert
  split
  · assumption
  · exact List.mem_append_right _ (List.mem_singleton.mpr (Eq.refl w))

theorem hsInsert_nodup (ws : List RStr) (w : RStr) (h : ws.Nodup) :
    (hsInsert ws w).Nodup := by
  unfold hsInsert
  split
  · exact h
  · next hnot =>
    rw [List.nodup_append]
    refine ⟨h, List.nodup_singleton w, ?_⟩
    intro a ha haw
    rw [List.mem_singleton] at haw
    exact hnot (haw ▸ ha)

theorem hsInsert_mem_iff (ws : List RStr) (w v : RStr) :
    v ∈ hsInsert ws w ↔ v ∈ ws ∨ v = w := by
  unfold hsInsert
  split
  · next hmem =>
    constructor
    · exact Or.inl
    · rintro (h | h)
      · exact h
      · exact h ▸ hmem
  · simp


/-- Definitional unfolding of `visit` at positive fuel. -/
theorem visit_succ (t : TrieNode) (board : Board) (fuel row col : Nat)
    (st : SearchState) :
    visit t board (fuel + 1) row col st =
      if !(in_bounds board row col) || get2 st.visited row col false then st
      else
        let cell := get2 board row col []
        let st1 : SearchState :=
          if t.hasPref (st.current_word ++ cell) then
            DIRECTIONS.foldl (dirStep t board fuel row col)
              ⟨set2 st.visited row col true, st.current_word ++ cell,
               if t.is_word (st.current_word ++ cell) then
                 hsInsert st.words (st.current_word ++ cell)
               else st.words⟩
          else ⟨set2 st.visited row col true, st.current_word ++ cell, st.words⟩
        ⟨set2 st1.visited row col false,
         truncateBytes st1.current_word (utf8Len st1.current_word - utf8Len cell),
         st1.words⟩ := rfl

/-- The frame/backtracking theorem for the total embedding of `visit`:
whatever the fuel, the coordinate (in- or out-of-bounds) and the state,
`visit` hands back the `visited` matrix and `current_word` accumulator it
received, and only appends to the word set. -/
theorem visit_stepOK (t : TrieNode) (board : Board) :
    ∀ (fuel row col : Nat) (st : SearchState),
      StepOK st (visit t board fuel row col st) := by
  intro fuel
  induction fuel with
  | zero => intro row col st; exact StepOK.rfl st
  | succ fuel ih =>
    intro row col st
    rw [visit_succ]
    by_cases hg : (!(in_bounds board row col) || get2 st.visited row col false) = true
    · rw [if_pos hg]; exact StepOK.rfl st
    · rw [if_neg hg]
      simp only [Bool.or_eq_true, Bool.not_eq_true', not_or, Bool.not_eq_true] at hg
      obtain ⟨hib, hvis⟩ := hg
      have hdir : ∀ (s : SearchState) (d : Int × Int), d ∈ DIRECTIONS →
          StepOK s (dirStep t board fuel row col s d) := by
        intro s d _
        simp only [dirStep]
        split
        · exact ih _ _ s
        · exact StepOK.rfl s
      have hrestore : ∀ words0 : List RStr,
          (∀ w, w ∈ st.words → w ∈ words0) → (st.words.Nodup → words0.Nodup) →
          ∀ st1 : SearchState,
            StepOK (⟨set2 st.visited row col true,
                     st.current_word ++ get2 board row col [], words0⟩ : SearchState) st1 →
            StepOK st
              ⟨set2 st1.visited row col false,
               truncateBytes st1.current_word
                 (utf8Len st1.current_word - utf8Len (get2 board row col [])),
               st1.words⟩ := by
        intro words0 hsub hnd st1 hstep
        obtain ⟨hv, hc, hw, hn⟩ := hstep
        refine ⟨?_, ?_, fun w hw' => hw w (hsub w hw'), fun h => hn (hnd h)⟩
        · show set2 st1.visited row col false = st.visited
          rw [hv]
          exact set2_cancel st.visited row col hvis
        · show truncateBytes st1.current_word _ = st.current_word
          rw [hc]
          show truncateBytes (st.current_word ++ get2 board row col [])
            (utf8Len (st.current_word ++ get2 board row col []) -
              utf8Len (get2 board row col [])) = st.current_word
          rw [utf8Len_append, Nat.add_sub_cancel]
          exact truncateBytes_append st.current_word (get2 board row col [])
      simp only
      by_cases hp : t.hasPref (st.current_word ++ get2 board row col []) = true
      · rw [if_pos hp]
        by_cases hwd : t.is_word (st.current_word ++ get2 board row col []) = true
        · rw [if_pos hwd]
          exact hrestore (hsInsert st.words (st.current_word ++ get2 board row col []))
            (fun w h => hsInsert_mem _ _ _ h) (fun h => hsInsert_nodup _ _ h) _
            (foldl_stepOK _ _ hdir _)
        · rw [if_neg hwd]
          exact hrestore st.words (fun _ h => h) (fun h => h) _
            (foldl_stepOK _ _ hdir _)
      · rw [if_neg hp]
        exact hrestore st.words (fun _ h => h) (fun h => h) _
          (StepOK.rfl _)

/-!
## The sort comparator is a total order
-/

theorem then_eq_gt (o₁ o₂ : Ordering) :
    (o₁.then o₂) = .gt ↔ (o₁ = .gt ∨ (o₁ = .eq ∧ o₂ = .gt)) := by
  cases o₁ <;> simp [Ordering.then]

theorem cmpChar_eq_iff (a b : Char) : cmpChar a b = .eq ↔ a = b := by
  unfold cmpChar
  split_ifs with h₁ h₂
  · exact iff_of_false (by simp) (ne_of_lt h₁)
  · exact iff_of_true rfl h₂
  · exact iff_of_false (by simp) h₂

theorem cmpChar_lt_iff (a b : Char) : cmpChar a b = .lt ↔ a < b := by
  unfold cmpChar
  split_ifs with h₁ h₂
  · exact iff_of_true rfl h₁
  · exact iff_of_false (by simp) h₁
  · exact iff_of_false (by simp) h₁

theorem cmpChar_gt_iff (a b : Char) : cmpChar a b = .gt ↔ b < a := by
  unfold cmpChar
  split_ifs with h₁ h₂
  · exact iff_of_false (by simp) (lt_asymm h₁)
  · exact iff_of_false (by simp) (fun h => absurd h₂.symm (ne_of_lt h))
  · exact iff_of_true rfl (((lt_trichotomy a b).resolve_left h₁).resolve_left h₂)

theorem cmpWord_eq_iff (a b : RStr) : cmpWord a b = .eq ↔ a = b := by
  induction a generalizing b with
  | nil => cases b <;> simp [cmpWord]
  | cons x xs ih =>
    cases b with
    | nil => simp [cmpWord]
    | cons y ys =>
      simp only [cmpWord, Ordering.then_eq_eq, cmpChar_eq_iff, ih, List.cons.injEq]

theorem cmpWord_gt_swap (a b : RStr) :
    cmpWord a b = .gt ↔ cmpWord b a = .lt := by
  induction a generalizing b with
  | nil => cases b <;> simp [cmpWord]
  | cons x xs ih =>
    cases b with
    | nil => simp [cmpWord]
    | cons y ys =>
      simp only [cmpWord, then_eq_gt]
      have hthen : ∀ o₁ o₂ : Ordering,
          (o₁.then o₂) = .lt ↔ (o₁ = .lt ∨ (o₁ = .eq ∧ o₂ = .lt)) := by
        intro o₁ o₂; cases o₁ <;> simp [Ordering.then]
      rw [hthen]
      constructor
      · rintro (h | ⟨he, h⟩)
        · exact Or.inl ((cmpChar_lt_iff y x).mpr ((cmpChar_gt_iff x y).mp h))
        · exact Or.inr ⟨(cmpChar_eq_iff y x).mpr ((cmpChar_eq_iff x y).mp he).symm,
            (ih ys).mp h⟩
      · rintro (h | ⟨he, h⟩)
        · exact Or.inl ((cmpChar_gt_iff x y).mpr ((cmpChar_lt_iff y x).mp h))
        · exact Or.inr ⟨(cmpChar_eq_iff x y).mpr ((cmpChar_eq_iff y x).mp he).symm,
            (ih ys).mpr h⟩

theorem then_ne_gt (o₁ o₂ : Ordering) :
    (o₁.then o₂) ≠ .gt ↔ (o₁ = .lt ∨ (o₁ = .eq ∧ o₂ ≠ .gt)) := by
  cases o₁ <;> simp [Ordering.then]

theorem cmpWord_trans_ne_gt (a b c : RStr)
    (h₁ : cmpWord a b ≠ .gt) (h₂ : cmpWord b c ≠ .gt) : cmpWord a c ≠ .gt := by
  induction a generalizing b c with
  | nil =>
    cases c with
    | nil => simp [cmpWord]
    | cons z zs => simp [cmpWord]
  | cons x xs ih =>
    cases b with
    | nil => cases (h₁ (by simp [cmpWord]))
    | cons y ys =>
      cases c with
      | nil => cases (h₂ (by simp [cmpWord]))
      | cons z zs =>
        simp only [cmpWord, then_ne_gt] at h₁ h₂ ⊢
        rcases h₁ with h₁ | ⟨h₁e, h₁r⟩ <;> rcases h₂ with h₂ | ⟨h₂e, h₂r⟩
        · exact Or.inl ((cmpChar_lt_iff _ _).mpr
            (lt_trans ((cmpChar_lt_iff _ _).mp h₁) ((cmpChar_lt_iff _ _).mp h₂)))
        · exact Or.inl ((cmpChar_lt_iff _ _).mpr
            (((cmpChar_eq_iff _ _).mp h₂e) ▸ (cmpChar_lt_iff _ _).mp h₁))
        · refine Or.inl ((cmpChar_lt_iff _ _).mpr ?_)
          rw [(cmpChar_eq_iff _ _).mp h₁e]
          exact (cmpChar_lt_iff _ _).mp h₂
        · exact Or.inr ⟨(cmpChar_eq_iff _ _).mpr
            (((cmpChar_eq_iff _ _).mp h₁e).trans ((cmpChar_eq_iff _ _).mp h₂e)),
            ih ys zs h₁r h₂r⟩

theorem rustCmp_eq_iff (a b : RStr) : rustCmp a b = .eq ↔ a = b := by
  unfold rustCmp
  rw [Ordering.then_eq_eq, Nat.compare_eq_eq, cmpWord_eq_iff]
  constructor
  · exact fun h => h.2
  · rintro rfl; exact ⟨rfl, rfl⟩

theorem rustCmp_gt_swap (a b : RStr) :
    rustCmp a b = .gt ↔ rustCmp b a = .lt := by
  unfold rustCmp
  have hthen : ∀ o₁ o₂ : Ordering,
      (o₁.then o₂) = .lt ↔ (o₁ = .lt ∨ (o₁ = .eq ∧ o₂ = .lt)) := by
    intro o₁ o₂; cases o₁ <;> simp [Ordering.then]
  rw [then_eq_gt, hthen, Nat.compare_eq_gt, Nat.compare_eq_lt, Nat.compare_eq_eq,
    Nat.compare_eq_eq, cmpWord_gt_swap]
  constructor
  · rintro (h | ⟨he, h⟩)
    · exact Or.inl h
    · exact Or.inr ⟨he.symm, h⟩
  · rintro (h | ⟨he, h⟩)
    · exact Or.inl h
    · exact Or.inr ⟨he.symm, h⟩

theorem wordLe_total (a b : RStr) : wordLe a b ∨ wordLe b a := by
  unfold wordLe
  by_cases h : rustCmp a b = .gt
  · right
    rw [rustCmp_gt_swap] at h
    rw [h]
    simp
  · exact Or.inl h

theorem wordLe_antisymm (a b : RStr) (h₁ : wordLe a b) (h₂ : wordLe b a) : a = b := by
  unfold wordLe at h₁ h₂
  rw [← rustCmp_eq_iff]
  rcases ho : rustCmp a b with _ | _ | _
  · exact absurd ((rustCmp_gt_swap b a).mpr ho) h₂
  · rfl
  · exact absurd ho h₁

theorem wordLe_trans (a b c : RStr) (h₁ : wordLe a b) (h₂ : wordLe b c) :
    wordLe a c := by
  unfold wordLe rustCmp at h₁ h₂ ⊢
  rw [then_ne_gt, Nat.compare_eq_lt, Nat.compare_eq_eq] at h₁ h₂ ⊢
  rcases h₁ with h₁ | ⟨h₁e, h₁r⟩ <;> rcases h₂ with h₂ | ⟨h₂e, h₂r⟩
  · exact Or.inl (lt_trans h₂ h₁)
  · exact Or.inl (h₂e ▸ h₁)
  · exact Or.inl (h₁e ▸ h₂)
  · exact Or.inr ⟨h₂e.trans h₁e, cmpWord_trans_ne_gt a b c h₁r h₂r⟩

instance instWordLeTotal : IsTotal RStr wordLe := ⟨wordLe_total⟩

instance instWordLeTrans : IsTrans RStr wordLe := ⟨wordLe_trans⟩

instance instWordLeAntisymm : IsAntisymm RStr wordLe := ⟨wordLe_antisymm⟩

/-!
## Post-processing: filter and sort
-/

theorem postSort_sorted (ws : List RStr) : (postSort ws).Sorted wordLe :=
  List.sorted_insertionSort wordLe _

theorem postSort_mem (ws : List RStr) (w : RStr) :
    w ∈ postSort ws ↔ w ∈ ws ∧ 3 ≤ utf8Len w := by
  unfold postSort
  rw [List.mem_insertionSort, List.mem_filter, decide_eq_true_iff]

theorem postSort_nodup (ws : List RStr) (h : ws.Nodup) : (postSort ws).Nodup := by
  unfold postSort
  exact ((List.perm_insertionSort wordLe _).nodup_iff).mpr (h.filter _)

theorem postSort_perm_eq (l₁ l₂ : List RStr) (h : l₁.Perm l₂) :
    postSort l₁ = postSort l₂ := by
  unfold postSort
  refine List.eq_of_perm_of_sorted ?_ (List.sorted_insertionSort wordLe _)
    (List.sorted_insertionSort wordLe _)
  exact ((List.perm_insertionSort wordLe _).trans (h.filter _)).trans
    (List.perm_insertionSort wordLe _).symm

/-- The double loop of `find_all_words` over all start cells, as a single
reusable statement. -/
theorem search_loop_stepOK (t : TrieNode) (board : Board) (fuel : Nat)
    (rows cols : List Nat) (init : SearchState) :
    StepOK init
      (rows.foldl
        (fun s row => cols.foldl (fun s' col => visit t board fuel row col s') s)
        init) := by
  apply foldl_stepOK
  intro s row _
  apply foldl_stepOK
  intro s' col _
  exact visit_stepOK t board fuel row col s'

theorem searchWords_nodup (t : TrieNode) (board : Board) :
    (searchWords t board).Nodup := by
  unfold searchWords
  have h := search_loop_stepOK t board (board.length * (board.getD 0 []).length + 1)
    (List.range board.length) (List.range (board.getD 0 []).length)
    ⟨List.replicate board.length (List.replicate (board.getD 0 []).length false), [], []⟩
  exact h.2.2.2 List.nodup_nil

theorem find_all_words_sorted (t : TrieNode) (board : Board) :
    (find_all_words t board).Sorted wordLe :=
  postSort_sorted _

theorem find_all_words_nodup (t : TrieNode) (board : Board) :
    (find_all_words t board).Nodup :=
  postSort_nodup _ (searchWords_nodup t board)

theorem find_all_words_mem (t : TrieNode) (board : Board) (w : RStr) :
    w ∈ find_all_words t board ↔ w ∈ searchWords t board ∧ 3 ≤ utf8Len w :=
  postSort_mem _ w

/-- `cmpWord`'s strict case is exactly Mathlib's lexicographic order on
lists of characters. -/
theorem cmpWord_lt_iff_lex (a b : RStr) :
    cmpWord a b = .lt ↔ List.Lex (· < ·) a b := by
  induction a generalizing b with
  | nil =>
    cases b with
    | nil =>
      simp only [cmpWord]
      exact iff_of_false (by simp) (by rintro ⟨⟩)
    | cons y ys =>
      simp only [cmpWord]
      exact iff_of_true trivial List.Lex.nil
  | cons x xs ih =>
    cases b with
    | nil =>
      simp only [cmpWord]
      exact iff_of_false (by simp) (by rintro ⟨⟩)
    | cons y ys =>
      simp only [cmpWord]
      have hthen : ∀ o₁ o₂ : Ordering,
          (o₁.then o₂) = .lt ↔ (o₁ = .lt ∨ (o₁ = .eq ∧ o₂ = .lt)) := by
        intro o₁ o₂; cases o₁ <;> simp [Ordering.then]
      rw [hthen, cmpChar_lt_iff, cmpChar_eq_iff, ih]
      constructor
      · rintro (h | ⟨rfl, h⟩)
        · exact List.Lex.rel h
        · exact List.Lex.cons h
      · intro h
        cases h with
        | rel h => exact Or.inl h
        | cons h => exact Or.inr ⟨rfl, h⟩

/-- `wordLe` in the spec's terms: descending byte length, ties broken by
ascending lexicographic order. -/
theorem wordLe_iff (a b : RStr) :
    wordLe a b ↔
      utf8Len b < utf8Len a ∨
        (utf8Len a = utf8Len b ∧ (a = b ∨ List.Lex (· < ·) a b)) := by
  unfold wordLe rustCmp
  rw [then_ne_gt, Nat.compare_eq_lt, Nat.compare_eq_eq]
  constructor
  · rintro (h | ⟨he, h⟩)
    · exact Or.inl h
    · refine Or.inr ⟨he.symm, ?_⟩
      rcases ho : cmpWord a b with _ | _ | _
      · exact Or.inr ((cmpWord_lt_iff_lex a b).mp ho)
      · exact Or.inl ((cmpWord_eq_iff a b).mp ho)
      · exact absurd ho h
  · rintro (h | ⟨he, h⟩)
    · exact Or.inl h
    · refine Or.inr ⟨he.symm, ?_⟩
      rcases h with rfl | h
      · rw [(cmpWord_eq_iff a a).mpr rfl]; simp
      · rw [(cmpWord_lt_iff_lex a b).mpr h]; simp

/-!
## Trie lemmas
-/

theorem findChild_nil (c : Char) : findChild [] c = none := rfl

theorem findChild_cons (a : Char) (t : TrieNode) (rest : List (Char × TrieNode))
    (c : Char) :
    findChild ((a, t) :: rest) c = if a = c then some t else findChild rest c := rfl

theorem setChild_nil (c : Char) (tn : TrieNode) : setChild [] c tn = [(c, tn)] := rfl

theorem setChild_cons (a : Char) (t : TrieNode) (rest : List (Char × TrieNode))
    (c : Char) (tn : TrieNode) :
    setChild ((a, t) :: rest) c tn =
      if a = c then (c, tn) :: rest else (a, t) :: setChild rest c tn := rfl

/-- If some extension of `p` is a word of the trie, then `p` is a live
prefix.  This is the fact that makes the solver's prefix pruning lossless. -/
theorem hasPref_of_is_word_append (t : TrieNode) (p q : RStr)
    (h : t.is_word (p ++ q) = true) : t.hasPref p = true := by
  induction p generalizing t with
  | nil => rfl
  | cons c p' ih =>
    rw [List.cons_append] at h
    rw [TrieNode.hasPref]
    rw [TrieNode.is_word] at h
    cases hf : findChild t.children c with
    | none =>
      simp only [hf] at h
      exact h
    | some child =>
      simp only [hf] at h
      simp only [hf]
      exact ih child h

theorem findChild_setChild (cs : List (Char × TrieNode)) (c : Char)
    (tn : TrieNode) (c' : Char) :
    findChild (setChild cs c tn) c' =
      if c = c' then some tn else findChild cs c' := by
  induction cs with
  | nil =>
    rw [setChild_nil, findChild_cons, findChild_nil]
  | cons p rest ih =>
    obtain ⟨c₀, t₀⟩ := p
    rw [setChild_cons]
    by_cases h₀ : c₀ = c
    · subst h₀
      rw [if_pos rfl, findChild_cons, findChild_cons]
      by_cases h' : c₀ = c'
      · simp only [if_pos h']
      · simp only [if_neg h']
    · rw [if_neg h₀, findChild_cons, findChild_cons, ih]
      by_cases h' : c₀ = c'
      · subst h'
        rw [if_pos rfl, if_pos rfl, if_neg (fun h => h₀ h.symm)]
      · rw [if_neg h', if_neg h']

theorem new_is_word_false (v : RStr) : TrieNode.new.is_word v = false := by
  cases v with
  | nil => rfl
  | cons c rest => rfl

/-- Characterization of `insert`: the words of `t.insert w` are the words
of `t` plus `w`. -/
theorem is_word_insert (w : RStr) : ∀ (t : TrieNode) (v : RStr),
    (t.insert w).is_word v = (t.is_word v || decide (v = w)) := by
  induction w with
  | nil =>
    intro t v
    cases t with
    | node cs fl =>
      cases v with
      | nil =>
        show true = (fl || decide (([] : RStr) = []))
        simp
      | cons d vrest =>
        show (match findChild cs d with
              | none => false
              | some child => child.is_word vrest) =
          ((match findChild cs d with
              | none => false
              | some child => child.is_word vrest) || decide (d :: vrest = []))
        rw [decide_eq_false (by simp : ¬(d :: vrest = ([] : RStr))), Bool.or_false]
  | cons c wrest ih =>
    intro t v
    cases t with
    | node cs fl =>
      cases v with
      | nil =>
        show fl = (fl || decide (([] : RStr) = c :: wrest))
        rw [decide_eq_false (by simp : ¬(([] : RStr) = c :: wrest)), Bool.or_false]
      | cons d vrest =>
        show (match findChild (setChild cs c (((findChild cs c).getD TrieNode.new).insert wrest)) d with
              | none => false
              | some child => child.is_word vrest) =
          ((match findChild cs d with
              | none => false
              | some child => child.is_word vrest) || decide (d :: vrest = c :: wrest))
        rw [findChild_setChild]
        by_cases hcd : c = d
        · subst hcd
          rw [if_pos rfl]
          have hdec : (decide (c :: vrest = c :: wrest)) = decide (vrest = wrest) := by
            simp
          rw [hdec]
          show (((findChild cs c).getD TrieNode.new).insert wrest).is_word vrest =
            ((match findChild cs c with
                | none => false
                | some child => child.is_word vrest) || decide (vrest = wrest))
          rw [ih]
          cases hf : findChild cs c with
          | none =>
            simp only [hf, Option.getD_none, new_is_word_false, Bool.false_or]
          | some ch =>
            simp only [hf, Option.getD_some]
        · rw [if_neg hcd]
          have hdec : (decide (d :: vrest = c :: wrest)) = false :=
            decide_eq_false (by
              intro h
              exact hcd (List.cons_eq_cons.mp h).1.symm)
          rw [hdec, Bool.or_false]

theorem is_word_foldl_insert (ws : List RStr) : ∀ (t : TrieNode) (v : RStr),
    (ws.foldl (fun d w => d.insert w) t).is_word v =
      (t.is_word v || decide (v ∈ ws)) := by
  induction ws with
  | nil =>
    intro t v
    simp
  | cons w ws ih =>
    intro t v
    rw [List.foldl_cons, ih, is_word_insert]
    by_cases hv : v = w
    · subst hv
      simp
    · simp [hv]

/-!
## Dictionary loading
-/

theorem load_dictionary_none (fs : RStr → Option RStr) (path : RStr)
    (dict : TrieNode) (h : fs path = none) :
    load_dictionary fs path dict = dict := by
  unfold load_dictionary
  rw [h]

theorem load_dictionary_some_is_word (fs : RStr → Option RStr) (path : RStr)
    (dict : TrieNode) (contents : RStr) (v : RStr) (h : fs path = some contents) :
    (load_dictionary fs path dict).is_word v =
      (dict.is_word v || decide (v ∈ (rustLines contents).map lowerStr)) := by
  unfold load_dictionary
  rw [h]
  have hmap : ((rustLines contents).map lowerStr).foldl (fun d w => d.insert w) dict =
      (rustLines contents).foldl (fun d w => d.insert (lowerStr w)) dict :=
    List.foldl_map lowerStr (fun d w => d.insert w) (rustLines contents) dict
  show ((rustLines contents).foldl (fun d w => d.insert (lowerStr w)) dict).is_word v =
    (dict.is_word v || decide (v ∈ (rustLines contents).map lowerStr))
  rw [← hmap, is_word_foldl_insert]

/-!
## Well-formedness of the visited matrix: dimensions and unvisited count
-/

theorem dimsOK_set2 (board : Board) (m : List (List Bool)) (r c : Nat) (x : Bool)
    (h : DimsOK board m) : DimsOK board (set2 m r c x) := by
  refine ⟨(set2_length m r c x).trans h.1, fun i hi => ?_⟩
  rw [set2_row_length]
  exact h.2 i (by rwa [set2_length m r c x] at hi)

theorem countFalse1_set_lt (row : List Bool) (c : Nat)
    (hc : c < row.length) (hv : row.getD c false = false) :
    countFalse1 (row.set c true) < countFalse1 row := by
  induction row generalizing c with
  | nil => cases hc
  | cons b bs ih =>
    cases c with
    | zero =>
      rw [List.getD_cons_zero] at hv
      subst hv
      simp only [List.set_cons_zero, countFalse1, List.filter_cons]
      simp
    | succ n =>
      rw [List.getD_cons_succ] at hv
      have hn : n < bs.length := Nat.lt_of_succ_lt_succ hc
      simp only [List.set_cons_succ, countFalse1, List.filter_cons]
      cases hb : !b
      · simpa [countFalse1] using ih n hn hv
      · simpa [countFalse1] using ih n hn hv

theorem countFalse_set2_lt (m : List (List Bool)) (r c : Nat)
    (hr : r < m.length) (hc : c < (m.getD r []).length)
    (hv : get2 m r c false = false) :
    countFalse (set2 m r c true) < countFalse m := by
  unfold get2 at hv
  induction m generalizing r with
  | nil => cases hr
  | cons row rows ih =>
    cases r with
    | zero =>
      rw [List.getD_cons_zero] at hv hc
      simp only [set2, List.getD_cons_zero, List.set_cons_zero, countFalse,
        List.map_cons, List.sum_cons]
      exact Nat.add_lt_add_right (countFalse1_set_lt row c hc hv) _
    | succ n =>
      rw [List.getD_cons_succ] at hv hc
      have := ih n (Nat.lt_of_succ_lt_succ hr) hc hv
      simp only [set2, List.getD_cons_succ, List.set_cons_succ, countFalse,
        List.map_cons, List.sum_cons]
      simp only [set2, countFalse] at this
      exact Nat.add_lt_add_left this _

theorem countFalse_replicate (rows cols : Nat) :
    countFalse (List.replicate rows (List.replicate cols false)) = rows * cols := by
  unfold countFalse countFalse1
  rw [List.map_replicate]
  have h1 : ((List.replicate cols false).filter (fun b => !b)).length = cols := by
    rw [List.filter_eq_self.mpr (by intro a ha; rw [List.eq_of_mem_replicate ha]; rfl)]
    exact List.length_replicate cols false
  rw [h1, List.sum_replicate, smul_eq_mul]

/-!
## The checked embedding: unfolding and access lemmas
-/

/-- Definitional unfolding of `visitChk` at positive fuel. -/
theorem visitChk_succ (t : TrieNode) (board : Board) (fuel row col : Nat)
    (st : SearchState) :
    visitChk t board (fuel + 1) row col st =
      if !(in_bounds board row col) then some st
      else
        match get2? st.visited row col with
        | none => none
        | some visHere =>
          if visHere then some st
          else
            match get2? board row col, set2? st.visited row col true with
            | none, _ => none
            | _, none => none
            | some cell, some visited1 =>
              let cw1 := st.current_word ++ cell
              match (if t.hasPref cw1 then
                  DIRECTIONS.foldl (dirStepChk t board fuel row col)
                    (some ⟨visited1, cw1,
                      if t.is_word cw1 then hsInsert st.words cw1 else st.words⟩)
                else some ⟨visited1, cw1, st.words⟩) with
              | none => none
              | some st1 =>
                match set2? st1.visited row col false with
                | none => none
                | some visited2 =>
                  if utf8Len cell ≤ utf8Len st1.current_word then
                    match truncateBytes? st1.current_word
                        (utf8Len st1.current_word - utf8Len cell) with
                    | none => none
                    | some cw2 => some ⟨visited2, cw2, st1.words⟩
                  else none := rfl

theorem getD_get? (l : List α) (i : Nat) (d : α) (h : i < l.length) :
    l.get? i = some (l.getD i d) := by
  simp only [List.get?_eq_getElem?, List.getD_eq_getElem?_getD]
  cases hx : l[i]? with
  | none => exact absurd (List.getElem?_eq_none_iff.mp hx) (Nat.not_le_of_lt h)
  | some x => rfl

theorem get?_lt_length (l : List α) (i : Nat) (a : α) (h : l.get? i = some a) :
    i < l.length := by
  rw [List.get?_eq_getElem?] at h
  exact (List.getElem?_eq_some_iff.mp h).1

theorem get?_getD (l : List α) (i : Nat) (a d : α) (h : l.get? i = some a) :
    l.getD i d = a := by
  rw [List.get?_eq_getElem?] at h
  rw [List.getD_eq_getElem?_getD, h]
  rfl

theorem get2?_eq_some (m : List (List α)) (r c : Nat) (v : α)
    (h : get2? m r c = some v) :
    r < m.length ∧ c < (m.getD r []).length ∧ ∀ d, get2 m r c d = v := by
  unfold get2? at h
  cases hr : m.get? r with
  | none =>
    simp only [hr] at h
    exact Option.noConfusion h
  | some rowL =>
    simp only [hr] at h
    have hrlen : r < m.length := get?_lt_length m r rowL hr
    have hrowD : m.getD r [] = rowL := get?_getD m r rowL [] hr
    have hclen : c < rowL.length := get?_lt_length rowL c v h
    refine ⟨hrlen, by rw [hrowD]; exact hclen, fun d => ?_⟩
    unfold get2
    rw [hrowD]
    exact get?_getD rowL c v d h

theorem get2?_of_lt (m : List (List α)) (r c : Nat)
    (hr : r < m.length) (hc : c < (m.getD r []).length) (d : α) :
    get2? m r c = some (get2 m r c d) := by
  unfold get2? get2
  simp only [getD_get? m r [] hr]
  exact getD_get? (m.getD r []) c d hc

theorem set2?_of_lt (m : List (List α)) (r c : Nat) (x : α)
    (hr : r < m.length) (hc : c < (m.getD r []).length) :
    set2? m r c x = some (set2 m r c x) := by
  unfold set2? set2
  simp only [getD_get? m r [] hr]
  rw [if_pos hc]

theorem set2?_eq_some (m : List (List α)) (r c : Nat) (x : α) (m' : List (List α))
    (h : set2? m r c x = some m') : m' = set2 m r c x := by
  unfold set2? at h
  cases hr : m.get? r with
  | none =>
    simp only [hr] at h
    exact Option.noConfusion h
  | some rowL =>
    simp only [hr] at h
    by_cases hc : c < rowL.length
    · rw [if_pos hc] at h
      have hrowD : m.getD r [] = rowL := get?_getD m r rowL [] hr
      unfold set2
      rw [hrowD]
      exact (Option.some_inj.mp h).symm
    · rw [if_neg hc] at h
      cases h

theorem truncateBytes?_append (x y : RStr) :
    truncateBytes? (x ++ y) (utf8Len x) = some x := by
  induction x with
  | nil =>
    show truncateBytes? y 0 = some []
    cases y <;> rfl
  | cons a as_ ih =>
    have hlen : utf8Len (a :: as_) = a.utf8Size + utf8Len as_ := by
      simp [utf8Len]
    rw [List.cons_append]
    cases hk : utf8Len (a :: as_) with
    | zero =>
      exfalso
      rw [hlen] at hk
      have := a.utf8Size_pos
      omega
    | succ k =>
      show (if a.utf8Size ≤ k + 1 then
          (truncateBytes? (as_ ++ y) (k + 1 - a.utf8Size)).map (fun w => a :: w)
        else none) = some (a :: as_)
      rw [hlen] at hk
      have hle : a.utf8Size ≤ k + 1 := by omega
      rw [if_pos hle]
      have hsub : k + 1 - a.utf8Size = utf8Len as_ := by omega
      rw [hsub, ih]
      rfl

theorem foldl_dirStepChk_none (t : TrieNode) (board : Board)
    (fuel row col : Nat) (dirs : List (Int × Int)) :
    dirs.foldl (dirStepChk t board fuel row col) none = none := by
  induction dirs with
  | nil => rfl
  | cons d dirs ih => exact ih

theorem dirStep_stepOK (t : TrieNode) (board : Board) (fuel row col : Nat)
    (s : SearchState) (d : Int × Int) :
    StepOK s (dirStep t board fuel row col s d) := by
  simp only [dirStep]
  split
  · exact visit_stepOK t board fuel _ _ s
  · exact StepOK.rfl s

theorem rect_row_len (board : Board) (hrect : Rect board = true) (r : Nat)
    (hr : r < board.length) :
    (board.getD r []).length = (board.getD 0 []).length := by
  unfold Rect at hrect
  rw [List.all_eq_true] at hrect
  have hmem : board.getD r [] ∈ board := by
    rw [List.getD_eq_getElem?_getD]
    have : board[r]? = some board[r] := List.getElem?_eq_some_iff.mpr ⟨hr, rfl⟩
    rw [this]
    exact List.getElem_mem hr
  exact decide_eq_true_iff.mp (hrect _ hmem)

theorem in_bounds_true_iff (board : Board) (row col : Nat) :
    in_bounds board row col = true ↔
      row < board.length ∧ col < (board.getD 0 []).length := by
  unfold in_bounds
  rw [Bool.and_eq_true, decide_eq_true_iff, decide_eq_true_iff]

/-- The checked embedding agrees with the total one: on a rectangular
board, with a visited matrix of the board's dimensions and enough fuel,
`visitChk` never panics or runs out of fuel, and returns exactly the
total embedding's result. -/
theorem visitChk_eq (t : TrieNode) (board : Board) (hrect : Rect board = true) :
    ∀ (fuel row col : Nat) (st : SearchState),
      DimsOK board st.visited → countFalse st.visited < fuel →
      visitChk t board fuel row col st = some (visit t board fuel row col st) := by
  intro fuel
  induction fuel with
  | zero =>
    intro row col st _ hf
    exact absurd hf (Nat.not_lt_zero _)
  | succ fuel ih =>
    intro row col st hdims hfuel
    rw [visitChk_succ, visit_succ]
    by_cases hib : in_bounds board row col = true
    · -- in bounds
      obtain ⟨hr, hc⟩ := (in_bounds_true_iff board row col).mp hib
      have hrv : row < st.visited.length := by rw [hdims.1]; exact hr
      have hcv : col < (st.visited.getD row []).length := by
        rw [hdims.2 row hrv]; exact hc
      rw [hib]
      simp only [Bool.not_true, Bool.false_or, if_false_left, Bool.not_eq_true]
      rw [get2?_of_lt st.visited row col hrv hcv false]
      simp only []
      by_cases hvis : get2 st.visited row col false = true
      · rw [if_pos hvis, if_pos hvis]
        simp
      · rw [if_neg hvis, if_neg hvis]
        rw [Bool.not_eq_true] at hvis
        have hcb : col < (board.getD row []).length := by
          rw [rect_row_len board hrect row hr]; exact hc
        rw [get2?_of_lt board row col hr hcb [], set2?_of_lt st.visited row col true hrv hcv]
        simp only []
        have hdims1 : DimsOK board (set2 st.visited row col true) :=
          dimsOK_set2 board st.visited row col true hdims
        have hcount1 : countFalse (set2 st.visited row col true) < fuel := by
          have hlt := countFalse_set2_lt st.visited row col hrv hcv hvis
          omega
        have fold_eq : ∀ (dirs : List (Int × Int)) (s : SearchState),
            DimsOK board s.visited → countFalse s.visited < fuel →
            dirs.foldl (dirStepChk t board fuel row col) (some s) =
              some (dirs.foldl (dirStep t board fuel row col) s) := by
          intro dirs
          induction dirs with
          | nil => intro s _ _; rfl
          | cons d ds ihd =>
            intro s hd hf
            rw [List.foldl_cons, List.foldl_cons]
            have hstep : dirStepChk t board fuel row col (some s) d =
                some (dirStep t board fuel row col s d) := by
              simp only [dirStepChk, dirStep]
              split
              · exact ih _ _ _ hd hf
              · rfl
            rw [hstep]
            have hok := dirStep_stepOK t board fuel row col s d
            refine ihd _ ?_ ?_
            · rw [hok.1]; exact hd
            · rw [hok.1]; exact hf
        have hepi : ∀ st1 : SearchState,
            st1.visited = set2 st.visited row col true →
            st1.current_word = st.current_word ++ get2 board row col [] →
            (match set2? st1.visited row col false with
             | none => none
             | some visited2 =>
                if utf8Len (get2 board row col []) ≤ utf8Len st1.current_word then
                  match truncateBytes? st1.current_word
                      (utf8Len st1.current_word - utf8Len (get2 board row col [])) with
                  | none => none
                  | some cw2 => some (⟨visited2, cw2, st1.words⟩ : SearchState)
                else none)
            = some (⟨set2 st1.visited row col false,
                truncateBytes st1.current_word
                  (utf8Len st1.current_word - utf8Len (get2 board row col [])),
                st1.words⟩ : SearchState) := by
          intro st1 hv1 hc1
          have hrv1 : row < st1.visited.length := by
            rw [hv1, set2_length]; exact hrv
          have hcv1 : col < (st1.visited.getD row []).length := by
            rw [hv1, set2_row_length]; exact hcv
          rw [set2?_of_lt st1.visited row col false hrv1 hcv1]
          simp only []
          rw [hc1, utf8Len_append, Nat.add_sub_cancel, if_pos (Nat.le_add_left _ _),
            truncateBytes?_append, truncateBytes_append]
        by_cases hp : t.hasPref (st.current_word ++ get2 board row col []) = true
        · rw [if_pos hp, if_pos hp]
          rw [fold_eq DIRECTIONS _ hdims1 hcount1]
          simp only []
          have hfold := foldl_stepOK (dirStep t board fuel row col) DIRECTIONS
            (fun s d _ => dirStep_stepOK t board fuel row col s d)
            ⟨set2 st.visited row col true,
             st.current_word ++ get2 board row col [],
             if t.is_word (st.current_word ++ get2 board row col []) then
               hsInsert st.words (st.current_word ++ get2 board row col [])
             else st.words⟩
          exact hepi _ hfold.1 hfold.2.1
        · rw [if_neg hp, if_neg hp]
          exact hepi _ rfl rfl
    · -- out of bounds: both sides return the state unchanged
      have hib' : in_bounds board row col = false := by
        rwa [Bool.not_eq_true] at hib
      rw [hib']
      rfl

theorem getD_replicate_lt (n i : Nat) (a d : α) (h : i < n) :
    (List.replicate n a).getD i d = a := by
  rw [List.getD_eq_getElem?_getD, List.getElem?_replicate, if_pos h]
  rfl

theorem dimsOK_replicate (board : Board) :
    DimsOK board
      (List.replicate board.length
        (List.replicate (board.getD 0 []).length false)) := by
  refine ⟨List.length_replicate _ _, fun i hi => ?_⟩
  rw [List.length_replicate] at hi
  rw [getD_replicate_lt _ _ _ _ hi, List.length_replicate]

/-- The two embeddings of `find_all_words` agree on non-empty rectangular
boards: no indexing panic, no underflow, no off-boundary truncation and no
fuel exhaustion occurs, and the checked result is exactly the total
embedding's result. -/
theorem find_all_wordsChk_eq (t : TrieNode) (board : Board)
    (hne : board ≠ []) (hrect : Rect board = true) :
    find_all_wordsChk t board = some (find_all_words t board) := by
  unfold find_all_wordsChk find_all_words searchWords
  have h0 : board.get? 0 = some (board.getD 0 []) :=
    getD_get? board 0 [] (List.length_pos.mpr hne)
  rw [h0]
  simp only []
  set F := board.length * (board.getD 0 []).length + 1 with hF
  have hinner : ∀ (cl : List Nat) (row : Nat) (s : SearchState),
      DimsOK board s.visited → countFalse s.visited < F →
      cl.foldl (fun s' col =>
          match s' with
          | none => none
          | some stt => visitChk t board F row col stt) (some s) =
        some (cl.foldl (fun s' col => visit t board F row col s') s) := by
    intro cl
    induction cl with
    | nil => intro row s _ _; rfl
    | cons c cls ihc =>
      intro row s hd hf
      rw [List.foldl_cons, List.foldl_cons]
      have hstep : (match some s with
          | none => none
          | some stt => visitChk t board F row c stt) =
            some (visit t board F row c s) :=
        visitChk_eq t board hrect F row c s hd hf
      rw [hstep]
      have hok := visit_stepOK t board F row c s
      refine ihc row _ ?_ ?_
      · rw [hok.1]; exact hd
      · rw [hok.1]; exact hf
  have houter : ∀ (rl : List Nat) (s : SearchState),
      DimsOK board s.visited → countFalse s.visited < F →
      rl.foldl (fun s' row =>
          (List.range (board.getD 0 []).length).foldl (fun s'' col =>
            match s'' with
            | none => none
            | some stt => visitChk t board F row col stt) s') (some s) =
        some (rl.foldl (fun s' row =>
          (List.range (board.getD 0 []).length).foldl
            (fun s'' col => visit t board F row col s'') s') s) := by
    intro rl
    induction rl with
    | nil => intro s _ _; rfl
    | cons r rls ihr =>
      intro s hd hf
      rw [List.foldl_cons, List.foldl_cons]
      rw [hinner _ r s hd hf]
      have hok := search_loop_stepOK t board F [r]
        (List.range (board.getD 0 []).length) s
      have hok' : StepOK s ((List.range (board.getD 0 []).length).foldl
          (fun s'' col => visit t board F r col s'') s) := by
        have := foldl_stepOK
          (fun s'' col => visit t board F r col s'')
          (List.range (board.getD 0 []).length)
          (fun s'' col _ => visit_stepOK t board F r col s'') s
        exact this
      refine ihr _ ?_ ?_
      · rw [hok'.1]; exact hd
      · rw [hok'.1]; exact hf
  have hinit : DimsOK board
      (List.replicate board.length (List.replicate (board.getD 0 []).length false)) :=
    dimsOK_replicate board
  have hcount : countFalse
      (List.replicate board.length (List.replicate (board.getD 0 []).length false)) < F := by
    rw [countFalse_replicate, hF]
    omega
  rw [houter _ _ hinit hcount]

theorem foldl_dirStepChk_frame (t : TrieNode) (board : Board)
    (fuel row col : Nat)
    (hvf : ∀ (r c : Nat) (s s' : SearchState),
      visitChk t board fuel r c s = some s' →
      s'.visited = s.visited ∧ s'.current_word = s.current_word) :
    ∀ (dirs : List (Int × Int)) (s₀ st1 : SearchState),
      dirs.foldl (dirStepChk t board fuel row col) (some s₀) = some st1 →
      st1.visited = s₀.visited ∧ st1.current_word = s₀.current_word := by
  intro dirs
  induction dirs with
  | nil =>
    intro s₀ st1 h
    cases h
    exact ⟨rfl, rfl⟩
  | cons d ds ihd =>
    intro s₀ st1 h
    rw [List.foldl_cons] at h
    have hstep : dirStepChk t board fuel row col (some s₀) d =
        (let nr : Int := (row : Int) + d.1
         let nc : Int := (col : Int) + d.2
         if 0 ≤ nr ∧ 0 ≤ nc then visitChk t board fuel nr.toNat nc.toNat s₀
         else some s₀) := rfl
    rw [hstep] at h
    simp only [] at h
    by_cases hsign : (0 : Int) ≤ (row : Int) + d.1 ∧ (0 : Int) ≤ (col : Int) + d.2
    · rw [if_pos hsign] at h
      cases hv : visitChk t board fuel ((row : Int) + d.1).toNat
          ((col : Int) + d.2).toNat s₀ with
      | none =>
        rw [hv, foldl_dirStepChk_none] at h
        exact Option.noConfusion h
      | some s₁ =>
        rw [hv] at h
        have h₁ := hvf _ _ _ _ hv
        have h₂ := ihd s₁ st1 h
        exact ⟨h₂.1.trans h₁.1, h₂.2.trans h₁.2⟩
    · rw [if_neg hsign] at h
      exact ihd s₀ st1 h

/-- The frame/backtracking theorem for the checked embedding of `visit`:
whenever `visit` returns (does not panic, including the early pruning
returns), the `visited` matrix and the `current_word` accumulator hold
exactly the values they held on entry. -/
theorem visitChk_frame (t : TrieNode) (board : Board) :
    ∀ (fuel row col : Nat) (st st' : SearchState),
      visitChk t board fuel row col st = some st' →
      st'.visited = st.visited ∧ st'.current_word = st.current_word := by
  intro fuel
  induction fuel with
  | zero =>
    intro row col st st' h
    exact Option.noConfusion h
  | succ fuel ih =>
    intro row col st st' h
    rw [visitChk_succ] at h
    by_cases hib : (!(in_bounds board row col)) = true
    · rw [if_pos hib] at h
      cases h
      exact ⟨rfl, rfl⟩
    · rw [if_neg hib] at h
      cases hg : get2? st.visited row col with
      | none =>
        rw [hg] at h
        exact Option.noConfusion h
      | some visHere =>
        rw [hg] at h
        simp only [] at h
        by_cases hvh : visHere = true
        · rw [if_pos hvh] at h
          cases h
          exact ⟨rfl, rfl⟩
        · rw [if_neg hvh] at h
          cases hb : get2? board row col with
          | none =>
            cases hs : set2? st.visited row col true with
            | none =>
              rw [hb, hs] at h
              exact Option.noConfusion h
            | some visited1 =>
              rw [hb, hs] at h
              exact Option.noConfusion h
          | some cell =>
            cases hs : set2? st.visited row col true with
            | none =>
              rw [hb, hs] at h
              exact Option.noConfusion h
            | some visited1 =>
              rw [hb, hs] at h
              simp only [] at h
              have hfoldfr : ∀ st1 : SearchState,
                  (if t.hasPref (st.current_word ++ cell) then
                    DIRECTIONS.foldl (dirStepChk t board fuel row col)
                      (some ⟨visited1, st.current_word ++ cell,
                        if t.is_word (st.current_word ++ cell) then
                          hsInsert st.words (st.current_word ++ cell)
                        else st.words⟩)
                  else some ⟨visited1, st.current_word ++ cell, st.words⟩) = some st1 →
                  st1.visited = visited1 ∧
                    st1.current_word = st.current_word ++ cell := by
                intro st1 hif
                by_cases hp : t.hasPref (st.current_word ++ cell) = true
                · rw [if_pos hp] at hif
                  exact foldl_dirStepChk_frame t board fuel row col ih DIRECTIONS _ st1 hif
                · rw [if_neg hp] at hif
                  cases hif
                  exact ⟨rfl, rfl⟩
              cases hst1 : (if t.hasPref (st.current_word ++ cell) then
                    DIRECTIONS.foldl (dirStepChk t board fuel row col)
                      (some ⟨visited1, st.current_word ++ cell,
                        if t.is_word (st.current_word ++ cell) then
                          hsInsert st.words (st.current_word ++ cell)
                        else st.words⟩)
                  else some ⟨visited1, st.current_word ++ cell, st.words⟩) with
              | none =>
                rw [hst1] at h
                exact Option.noConfusion h
              | some st1 =>
                rw [hst1] at h
                simp only [] at h
                obtain ⟨hv1, hc1⟩ := hfoldfr st1 hst1
                cases hs2 : set2? st1.visited row col false with
                | none =>
                  rw [hs2] at h
                  exact Option.noConfusion h
                | some visited2 =>
                  rw [hs2] at h
                  simp only [] at h
                  by_cases hle : utf8Len cell ≤ utf8Len st1.current_word
                  · rw [if_pos hle] at h
                    have htr : truncateBytes? st1.current_word
                        (utf8Len st1.current_word - utf8Len cell) =
                        some st.current_word := by
                      rw [hc1, utf8Len_append, Nat.add_sub_cancel]
                      exact truncateBytes?_append st.current_word cell
                    rw [htr] at h
                    cases h
                    constructor
                    · show visited2 = st.visited
                      have h2 := set2?_eq_some st1.visited row col false visited2 hs2
                      have h1 := set2?_eq_some st.visited row col true visited1 hs
                      rw [h2, hv1, h1]
                      obtain ⟨-, -, hval⟩ := get2?_eq_some st.visited row col visHere hg
                      exact set2_cancel st.visited row col
                        (by rw [hval false]; exact Bool.eq_false_iff.mpr hvh ▸ rfl)
                    · rfl
                  · rw [if_neg hle] at h
                    exact Option.noConfusion h

/-!
## Soundness and completeness of the search
-/

theorem marks_init (board : Board) :
    Marks board []
      (List.replicate board.length
        (List.replicate (board.getD 0 []).length false)) := by
  refine ⟨dimsOK_replicate board, fun r c hr hc => ?_⟩
  unfold get2
  rw [getD_replicate_lt _ _ _ _ hr, getD_replicate_lt _ _ _ _ hc]
  simp

theorem marks_set_true (board : Board) (p : List (Nat × Nat))
    (m : List (List Bool)) (r c : Nat) (h : Marks board p m)
    (hin : inBoardP board (r, c)) :
    Marks board (p ++ [(r, c)]) (set2 m r c true) := by
  obtain ⟨hdims, hiff⟩ := h
  refine ⟨dimsOK_set2 board m r c true hdims, fun r' c' hr' hc' => ?_⟩
  rw [List.mem_append, List.mem_singleton]
  by_cases heq : r = r' ∧ c = c'
  · obtain ⟨rfl, rfl⟩ := heq
    have hrm : r < m.length := by rw [hdims.1]; exact hin.1
    have hcm : c < (m.getD r []).length := by rw [hdims.2 r hrm]; exact hin.2
    rw [get2_set2_eq m r c true false hrm hcm]
    simp
  · rw [get2_set2_ne m r c r' c' true false heq, hiff r' c' hr' hc']
    have hne : ¬((r', c') = (r, c)) := by
      intro hp
      exact heq ⟨(Prod.mk.injEq .. ▸ hp).1.symm, (Prod.mk.injEq .. ▸ hp).2.symm⟩
    simp [hne]

theorem spell_append (board : Board) (p q : List (Nat × Nat)) :
    spell board (p ++ q) = spell board p ++ spell board q := by
  unfold spell
  rw [List.map_append, List.flatten_append]

theorem spell_single (board : Board) (r c : Nat) :
    spell board [(r, c)] = get2 board r c [] := by
  unfold spell
  simp

theorem foldl_inv {σ β : Type} (Inv : σ → Prop) (f : σ → β → σ) (l : List β)
    (h : ∀ s b, b ∈ l → Inv s → Inv (f s b)) (s : σ) (hs : Inv s) :
    Inv (l.foldl f s) := by
  induction l generalizing s with
  | nil => exact hs
  | cons b bs ih =>
    exact ih (fun s' b' hb' => h s' b' (List.mem_cons_of_mem b hb'))
      (f s b) (h s b (List.mem_cons_self b bs) hs)

/-- Extending a valid path by an adjacent unvisited in-bounds cell. -/
theorem isPath_extend (board : Board) (p : List (Nat × Nat)) (row col : Nat)
    (hpath : IsPath board p) (hnm : (row, col) ∉ p)
    (hinb : inBoardP board (row, col))
    (hlast : p = [] ∨ ∃ q, p.getLast? = some q ∧ adjacentP q (row, col)) :
    IsPath board (p ++ [(row, col)]) := by
  obtain ⟨hnd, hin, hch⟩ := hpath
  refine ⟨?_, ?_, ?_⟩
  · rw [List.nodup_append]
    refine ⟨hnd, List.nodup_singleton _, fun a ha hb => ?_⟩
    rw [List.mem_singleton] at hb
    exact hnm (hb ▸ ha)
  · intro rc hrc
    rcases List.mem_append.mp hrc with h | h
    · exact hin rc h
    · rw [List.mem_singleton] at h
      exact h ▸ hinb
  · refine List.Chain'.append hch (List.chain'_singleton _) ?_
    intro x hx y hy
    simp only [List.head?_cons, Option.mem_def, Option.some_inj] at hy
    subst hy
    rcases hlast with rfl | ⟨q, hq, hadj⟩
    · simp at hx
    · rw [hq] at hx
      simp only [Option.mem_def, Option.some_inj] at hx
      exact hx ▸ hadj

theorem adjacent_offset (row col : Nat) (d : Int × Int) (hd : d ∈ DIRECTIONS)
    (h1 : (0 : Int) ≤ (row : Int) + d.1) (h2 : (0 : Int) ≤ (col : Int) + d.2) :
    adjacentP (row, col) (((row : Int) + d.1).toNat, ((col : Int) + d.2).toNat) := by
  unfold adjacentP
  have e1 : ((((row : Int) + d.1).toNat : Int)) = (row : Int) + d.1 :=
    Int.toNat_of_nonneg h1
  have e2 : ((((col : Int) + d.2).toNat : Int)) = (col : Int) + d.2 :=
    Int.toNat_of_nonneg h2
  simp only [e1, e2]
  have e3 : (row : Int) + d.1 - row = d.1 := by ring
  have e4 : (col : Int) + d.2 - col = d.2 := by ring
  rw [e3, e4]
  exact hd

/-- Soundness invariant of the DFS: assuming the state faithfully encodes
an in-progress path `p` and every recorded word is legitimate, every word
recorded by `visit` is an exact dictionary match spelled by a non-empty
simple path on the board. -/
theorem visit_sound (t : TrieNode) (board : Board) :
    ∀ (fuel row col : Nat) (st : SearchState) (p : List (Nat × Nat)),
      IsPath board p →
      Marks board p st.visited →
      st.current_word = spell board p →
      (p = [] ∨ ∃ q, p.getLast? = some q ∧ adjacentP q (row, col)) →
      (∀ w ∈ st.words, GoodWord t board w) →
      ∀ w ∈ (visit t board fuel row col st).words, GoodWord t board w := by
  intro fuel
  induction fuel with
  | zero =>
    intro row col st p _ _ _ _ hwords
    exact hwords
  | succ fuel ih =>
    intro row col st p hpath hmarks hcw hlast hwords
    rw [visit_succ]
    by_cases hg : (!(in_bounds board row col) || get2 st.visited row col false) = true
    · rw [if_pos hg]; exact hwords
    · rw [if_neg hg]
      simp only [Bool.or_eq_true, Bool.not_eq_true', not_or, Bool.not_eq_true] at hg
      obtain ⟨hib, hvis⟩ := hg
      obtain ⟨hr, hc⟩ := (in_bounds_true_iff board row col).mp
        (by rw [Bool.not_eq_false] at hib; exact hib)
      have hinb : inBoardP board (row, col) := ⟨hr, hc⟩
      have hnm : (row, col) ∉ p := by
        intro hmem
        rw [(hmarks.2 row col hr hc).mpr hmem] at hvis
        exact Bool.noConfusion hvis
      have hpath' : IsPath board (p ++ [(row, col)]) :=
        isPath_extend board p row col hpath hnm hinb hlast
      have hcw1 : st.current_word ++ get2 board row col [] =
          spell board (p ++ [(row, col)]) := by
        rw [spell_append, spell_single, hcw]
      have hmarks' : Marks board (p ++ [(row, col)]) (set2 st.visited row col true) :=
        marks_set_true board p st.visited row col hmarks hinb
      simp only
      by_cases hp : t.hasPref (st.current_word ++ get2 board row col []) = true
      · rw [if_pos hp]
        set Inv : SearchState → Prop := fun s =>
          s.visited = set2 st.visited row col true ∧
          s.current_word = st.current_word ++ get2 board row col [] ∧
          (∀ w ∈ s.words, GoodWord t board w) with hInv
        have hstep : ∀ (s : SearchState) (d : Int × Int), d ∈ DIRECTIONS →
            Inv s → Inv (dirStep t board fuel row col s d) := by
          intro s d hd hs
          simp only [dirStep]
          by_cases hsign : (0 : Int) ≤ (row : Int) + d.1 ∧ (0 : Int) ≤ (col : Int) + d.2
          · rw [if_pos hsign]
            have hfr := visit_stepOK t board fuel
              ((row : Int) + d.1).toNat ((col : Int) + d.2).toNat s
            refine ⟨hfr.1.trans hs.1, hfr.2.1.trans hs.2.1, ?_⟩
            apply ih _ _ s (p ++ [(row, col)]) hpath'
            · rw [hs.1]; exact hmarks'
            · rw [hs.2.1]; exact hcw1
            · exact Or.inr ⟨(row, col), List.getLast?_concat p,
                adjacent_offset row col d hd hsign.1 hsign.2⟩
            · exact hs.2.2
          · rw [if_neg hsign]
            exact hs
        have hinit : Inv ⟨set2 st.visited row col true,
            st.current_word ++ get2 board row col [],
            if t.is_word (st.current_word ++ get2 board row col []) then
              hsInsert st.words (st.current_word ++ get2 board row col [])
            else st.words⟩ := by
          refine ⟨rfl, rfl, ?_⟩
          by_cases hwd : t.is_word (st.current_word ++ get2 board row col []) = true
        
          · rw [if_pos hwd]
            intro w hw
            rcases (hsInsert_mem_iff _ _ _).mp hw with h | rfl
            · exact hwords w h
            · exact ⟨hwd, p ++ [(row, col)], by simp, hpath', hcw1.symm⟩
          · rw [if_neg hwd]
            exact hwords
        have hfold := foldl_inv Inv _ DIRECTIONS hstep _ hinit
        exact hfold.2.2
      · rw [if_neg hp]
        exact hwords

/-- Completeness invariant of the DFS: if the state encodes the already
walked part `p₀` of a valid path continuing with the current cell and
`rest`, and the whole path spells a dictionary word, then the word is in
the result set after the visit (given fuel exceeding the remaining path). -/
theorem visit_complete (t : TrieNode) (board : Board) :
    ∀ (fuel : Nat) (row col : Nat) (p₀ rest : List (Nat × Nat))
      (st : SearchState) (w : RStr),
      IsPath board (p₀ ++ (row, col) :: rest) →
      Marks board p₀ st.visited →
      st.current_word = spell board p₀ →
      w = spell board (p₀ ++ (row, col) :: rest) →
      t.is_word w = true →
      rest.length < fuel →
      w ∈ (visit t board fuel row col st).words := by
  intro fuel
  induction fuel with
  | zero =>
    intro row col p₀ rest st w _ _ _ _ _ hf
    exact absurd hf (Nat.not_lt_zero _)
  | succ fuel ih =>
    intro row col p₀ rest st w hpath hmarks hcw hspell hword hf
    have hnd := hpath.1
    have hinb : inBoardP board (row, col) :=
      hpath.2.1 (row, col) (List.mem_append_right p₀ (List.mem_cons_self _ _))
    have hnm : (row, col) ∉ p₀ := by
      intro hmem
      exact (List.nodup_append.mp hnd).2.2 hmem (List.mem_cons_self _ _)
    have hvis : get2 st.visited row col false = false := by
      cases hb : get2 st.visited row col false with
      | false => rfl
      | true =>
        exact absurd ((hmarks.2 row col hinb.1 hinb.2).mp hb) hnm
    have hguard : (!(in_bounds board row col) || get2 st.visited row col false) = false := by
      rw [hvis, (in_bounds_true_iff board row col).mpr ⟨hinb.1, hinb.2⟩]
      rfl
    rw [visit_succ, if_neg (by rw [hguard]; exact Bool.noConfusion)]
    simp only
    have hcw1 : st.current_word ++ get2 board row col [] =
        spell board (p₀ ++ [(row, col)]) := by
      rw [spell_append, spell_single, hcw]
    have hsplitw : w = spell board (p₀ ++ [(row, col)]) ++ spell board rest := by
      rw [hspell, ← spell_append]
      simp
    have hp : t.hasPref (st.current_word ++ get2 board row col []) = true := by
      apply hasPref_of_is_word_append t _ (spell board rest)
      rw [hcw1, ← hsplitw]
      exact hword
    rw [if_pos hp]
    cases rest with
    | nil =>
      have hweq : w = st.current_word ++ get2 board row col [] := by
        rw [hcw1, hsplitw]
        simp [spell]
      have hwd : t.is_word (st.current_word ++ get2 board row col []) = true := by
        rw [← hweq]; exact hword
      rw [if_pos hwd]
      have hmem0 : w ∈ hsInsert st.words (st.current_word ++ get2 board row col []) := by
        rw [hweq]
        exact hsInsert_self_mem _ _
      have hfold := foldl_stepOK (dirStep t board fuel row col) DIRECTIONS
        (fun s d _ => dirStep_stepOK t board fuel row col s d)
        ⟨set2 st.visited row col true, st.current_word ++ get2 board row col [],
         hsInsert st.words (st.current_word ++ get2 board row col [])⟩
      exact hfold.2.2.1 w hmem0
    | cons q rest' =>
      have hadj : adjacentP (row, col) q := by
        have hch := hpath.2.2
        have hch2 : List.Chain' adjacentP ((row, col) :: q :: rest') :=
          (List.chain'_append.mp hch).2.1
        exact (List.chain'_cons.mp hch2).1
      have hd : (((q.1 : Int) - (row : Int), (q.2 : Int) - (col : Int)) : Int × Int)
          ∈ DIRECTIONS := hadj
      obtain ⟨l₁, l₂, hsplit⟩ := List.append_of_mem hd
      rw [hsplit, List.foldl_append, List.foldl_cons]
      set E : RStr := st.current_word ++ get2 board row col [] with hE
      set s₀ : SearchState :=
        ⟨set2 st.visited row col true, E,
         if t.is_word E = true then hsInsert st.words E else st.words⟩ with hs₀
      have hfr₁ := foldl_stepOK (dirStep t board fuel row col) l₁
        (fun s d _ => dirStep_stepOK t board fuel row col s d) s₀
      set s₁ := l₁.foldl (dirStep t board fuel row col) s₀ with hs₁
      have hds : dirStep t board fuel row col s₁
          ((q.1 : Int) - (row : Int), (q.2 : Int) - (col : Int)) =
          visit t board fuel q.1 q.2 s₁ := by
        simp only [dirStep]
        have e1 : (row : Int) + ((q.1 : Int) - (row : Int)) = (q.1 : Int) := by ring
        have e2 : (col : Int) + ((q.2 : Int) - (col : Int)) = (q.2 : Int) := by ring
        rw [e1, e2, if_pos ⟨Int.natCast_nonneg q.1, Int.natCast_nonneg q.2⟩,
          Int.toNat_natCast, Int.toNat_natCast]
      rw [hds]
      have hassoc : p₀ ++ (row, col) :: q :: rest' =
          (p₀ ++ [(row, col)]) ++ q :: rest' := by simp
      have hmem1 : w ∈ (visit t board fuel q.1 q.2 s₁).words := by
        apply ih q.1 q.2 (p₀ ++ [(row, col)]) rest' s₁ w
        · rw [← hassoc]
          exact hpath
        · have : s₁.visited = set2 st.visited row col true := hfr₁.1
          rw [this]
          exact marks_set_true board p₀ st.visited row col hmarks hinb
        · rw [hfr₁.2.1]
          exact hcw1
        · rw [← hassoc]
          exact hspell
        · exact hword
        · exact Nat.lt_of_succ_lt_succ hf
      have hfr₂ := foldl_stepOK (dirStep t board fuel row col) l₂
        (fun s d _ => dirStep_stepOK t board fuel row col s d)
        (visit t board fuel q.1 q.2 s₁)
      exact hfr₂.2.2.1 w hmem1

theorem searchWords_def (t : TrieNode) (board : Board) :
    searchWords t board =
      ((List.range board.length).foldl
        (fun s row =>
          (List.range (board.getD 0 []).length).foldl
            (fun s' col =>
              visit t board (board.length * (board.getD 0 []).length + 1) row col s') s)
        ⟨List.replicate board.length
          (List.replicate (board.getD 0 []).length false), [], []⟩).words := rfl

theorem isPath_nil (board : Board) : IsPath board [] :=
  ⟨List.nodup_nil, fun rc h => absurd h (List.not_mem_nil rc), List.chain'_nil⟩

theorem spell_nil (board : Board) : spell board [] = [] := rfl

/-- Everything `find_all_words`'s search loop collects is an exact
dictionary match spelled by a non-empty simple path. -/
theorem searchWords_sound (t : TrieNode) (board : Board) :
    ∀ w ∈ searchWords t board, GoodWord t board w := by
  rw [searchWords_def]
  set F := board.length * (board.getD 0 []).length + 1 with hF
  set init : SearchState :=
    ⟨List.replicate board.length
      (List.replicate (board.getD 0 []).length false), [], []⟩ with hinit
  have hfold := foldl_inv
    (fun s : SearchState => s.visited = init.visited ∧ s.current_word = [] ∧
      ∀ w ∈ s.words, GoodWord t board w)
    (fun s row =>
      (List.range (board.getD 0 []).length).foldl
        (fun s' col => visit t board F row col s') s)
    (List.range board.length)
    (fun s row _ hs => by
      exact foldl_inv
        (fun s : SearchState => s.visited = init.visited ∧ s.current_word = [] ∧
          ∀ w ∈ s.words, GoodWord t board w)
        (fun s' col => visit t board F row col s')
        (List.range (board.getD 0 []).length)
        (fun s' col _ hs' => by
          have hfr := visit_stepOK t board F row col s'
          refine ⟨hfr.1.trans hs'.1, hfr.2.1.trans hs'.2.1, ?_⟩
          apply visit_sound t board F row col s' [] (isPath_nil board)
          · rw [hs'.1]
            exact marks_init board
          · rw [hs'.2.1]
            rfl
          · exact Or.inl rfl
          · exact hs'.2.2) s hs)
    init ⟨rfl, rfl, fun w hw => absurd hw (List.not_mem_nil w)⟩
  exact hfold.2.2

theorem path_length_le (board : Board) (p : List (Nat × Nat))
    (hnd : p.Nodup) (hin : ∀ rc ∈ p, inBoardP board rc) :
    p.length ≤ board.length * (board.getD 0 []).length := by
  classical
  rw [← List.toFinset_card_of_nodup hnd]
  have hsub : p.toFinset ⊆
      Finset.range board.length ×ˢ Finset.range (board.getD 0 []).length := by
    intro rc hrc
    rw [List.mem_toFinset] at hrc
    have h := hin rc hrc
    rw [Finset.mem_product, Finset.mem_range, Finset.mem_range]
    exact ⟨h.1, h.2⟩
  have := Finset.card_le_card hsub
  rwa [Finset.card_product, Finset.card_range, Finset.card_range] at this

/-- Every exact dictionary match spelled by a non-empty simple path is
collected by `find_all_words`'s search loop. -/
theorem searchWords_complete (t : TrieNode) (board : Board) (w : RStr)
    (p : List (Nat × Nat)) (hp : IsPath board p) (hne : p ≠ [])
    (hs : spell board p = w) (hword : t.is_word w = true) :
    w ∈ searchWords t board := by
  obtain ⟨q₀, rest, rfl⟩ := List.exists_cons_of_ne_nil hne
  obtain ⟨r₀, c₀⟩ := q₀
  have hinb : inBoardP board (r₀, c₀) := hp.2.1 _ (List.mem_cons_self _ _)
  rw [searchWords_def]
  set F := board.length * (board.getD 0 []).length + 1 with hF
  set init : SearchState :=
    ⟨List.replicate board.length
      (List.replicate (board.getD 0 []).length false), [], []⟩ with hinit
  have hfuel : rest.length < F := by
    have hle := path_length_le board ((r₀, c₀) :: rest) hp.1 hp.2.1
    rw [List.length_cons] at hle
    omega
  set innerStep : SearchState → Nat → Nat → SearchState :=
    fun s row col => visit t board F row col s with hinnerStep
  set outer : SearchState → Nat → SearchState :=
    fun s row =>
      (List.range (board.getD 0 []).length).foldl
        (fun s' col => visit t board F row col s') s with houter
  have houterStepOK : ∀ (s : SearchState) (row : Nat), StepOK s (outer s row) :=
    fun s row => foldl_stepOK _ _
      (fun s' col _ => visit_stepOK t board F row col s') s
  obtain ⟨rl₁, rl₂, hrsplit⟩ :=
    List.append_of_mem (List.mem_range.mpr hinb.1)
  rw [hrsplit, List.foldl_append, List.foldl_cons]
  set sa := rl₁.foldl outer init with hsa
  have hsaOK : StepOK init sa :=
    foldl_stepOK outer rl₁ (fun s r _ => houterStepOK s r) init
  obtain ⟨cl₁, cl₂, hcsplit⟩ :=
    List.append_of_mem (List.mem_range.mpr hinb.2)
  have houter_r₀ : outer sa r₀ =
      cl₂.foldl (fun s' col => visit t board F r₀ col s')
        (visit t board F r₀ c₀
          (cl₁.foldl (fun s' col => visit t board F r₀ col s') sa)) := by
    rw [houter]
    simp only
    rw [hcsplit, List.foldl_append, List.foldl_cons]
  set sb := cl₁.foldl (fun s' col => visit t board F r₀ col s') sa with hsb
  have hsbOK : StepOK sa sb :=
    foldl_stepOK _ cl₁ (fun s' c _ => visit_stepOK t board F r₀ c s') sa
  have hmem : w ∈ (visit t board F r₀ c₀ sb).words := by
    apply visit_complete t board F r₀ c₀ [] rest sb w
    · rw [List.nil_append]
      exact hp
    · rw [hsbOK.1, hsaOK.1]
      exact marks_init board
    · rw [hsbOK.2.1, hsaOK.2.1]
      rfl
    · rw [List.nil_append]
      exact hs.symm
    · exact hword
    · exact hfuel
  have hmem2 : w ∈ (outer sa r₀).words := by
    rw [houter_r₀]
    have := foldl_stepOK (fun s' col => visit t board F r₀ col s') cl₂
      (fun s' c _ => visit_stepOK t board F r₀ c s')
      (visit t board F r₀ c₀ sb)
    exact this.2.2.1 w hmem
  have := foldl_stepOK outer rl₂ (fun s r _ => houterStepOK s r) (outer sa r₀)
  exact this.2.2.1 w hmem2

/-- Full characterization of `find_all_words`: it returns exactly the
dictionary words of byte length ≥ 3 spelled by a non-empty simple
8-directionally-connected path on the board. -/
theorem find_all_words_iff (t : TrieNode) (board : Board) (w : RStr) :
    w ∈ find_all_words t board ↔
      t.is_word w = true ∧ 3 ≤ utf8Len w ∧
        ∃ p, p ≠ [] ∧ IsPath board p ∧ spell board p = w := by
  rw [find_all_words_mem]
  constructor
  · rintro ⟨hmem, hlen⟩
    obtain ⟨hword, p, hne, hp, hspell⟩ := searchWords_sound t board w hmem
    exact ⟨hword, hlen, p, hne, hp, hspell⟩
  · rintro ⟨hword, hlen, p, hne, hp, hspell⟩
    exact ⟨searchWords_complete t board w p hp hne hspell hword, hlen⟩

/-!
## The claims
-/

/-- C1. For every non-empty rectangular board and every dictionary state,
`find_all_words` returns exactly the set of dictionary words of length ≥ 3
(Rust `String::len`, i.e. UTF-8 bytes) that are traceable as an
8-directionally-connected path of adjacent cells in which no board cell
occurs twice: every such word is in the result, and every word in the
result is spelled by at least one such simple path and is an exact
dictionary match. -/
theorem spec_C1 (t : TrieNode) (board : Board) (_hne : board ≠ [])
    (_hrect : Rect board = true) (w : RStr) :
    w ∈ find_all_words t board ↔
      t.is_word w = true ∧ 3 ≤ utf8Len w ∧
        ∃ p, p ≠ [] ∧ IsPath board p ∧ spell board p = w :=
  find_all_words_iff t board w

/-- Witness for C1 on the board `t a r` with dictionary {"tar"}. -/
theorem spec_C1_witness : ['t', 'a', 'r'] ∈ find_all_words wTrie wBoard :=
  (spec_C1 wTrie wBoard (by decide) (by decide) ['t', 'a', 'r']).mpr
    ⟨by decide, by decide, [(0, 0), (0, 1), (0, 2)], by decide, by decide, by decide⟩

/-- C2 (amended). Calling `find_all_words` on an empty board panics on the
out-of-bounds access `board[0]` (modelled: the checked embedding returns
`none`) instead of returning an empty result. -/
theorem spec_C2 (t : TrieNode) : find_all_wordsChk t [] = none := rfl

/-- Counterexample to C2 as stated: on the empty board the solver does not
return an empty result — it fails (in the checked embedding, `none`,
modelling the `board[0]` index panic). -/
theorem spec_C2_cex :
    find_all_wordsChk TrieNode.new [] = none ∧
      find_all_wordsChk TrieNode.new [] ≠ some [] := by
  exact ⟨rfl, by decide⟩

/-- C3 (amended). `find_all_words` never returns a word whose UTF-8 byte
length (Rust `String::len`) is smaller than 3; the filter is on bytes, not
on the number of tokens or characters. -/
theorem spec_C3 (t : TrieNode) (board : Board) (w : RStr)
    (h : w ∈ find_all_words t board) : 3 ≤ utf8Len w :=
  ((find_all_words_mem t board w).mp h).2

/-- Witness for C3: "tar" is returned and has byte length ≥ 3. -/
theorem spec_C3_witness : 3 ≤ utf8Len ['t', 'a', 'r'] :=
  spec_C3 wTrie wBoard ['t', 'a', 'r'] (by decide)

/-- Counterexample to C3 as stated ("never returns a word shorter than 3
tokens"): with the dictionary word "éa" and the 1×2 board `é a`, the
returned word "éa" is 2 tokens (and 2 characters) long — shorter than 3 —
but passes the filter because its UTF-8 byte length is 3. -/
theorem spec_C3_cex :
    ['é', 'a'] ∈ find_all_words c3Trie c3Board ∧
      (['é', 'a'] : RStr).length < 3 := by
  decide

/-- C4. The sequence returned by `find_all_words` is sorted by descending
(byte) length, ties broken by ascending lexicographic order. -/
theorem spec_C4 (t : TrieNode) (board : Board) :
    (find_all_words t board).Pairwise
      (fun a b => utf8Len b < utf8Len a ∨
        (utf8Len a = utf8Len b ∧ List.Lex (· < ·) a b)) := by
  have hs : (find_all_words t board).Pairwise wordLe := find_all_words_sorted t board
  have hn := find_all_words_nodup t board
  refine (hs.and hn).imp ?_
  rintro a b ⟨hle, hne⟩
  rcases (wordLe_iff a b).mp hle with h | ⟨he, h⟩
  · exact Or.inl h
  · rcases h with rfl | h
    · exact absurd rfl hne
    · exact Or.inr ⟨he, h⟩

/-- C5. Each word appears at most once in the sequence returned by
`find_all_words`, even when it is reachable via multiple distinct paths. -/
theorem spec_C5 (t : TrieNode) (board : Board) :
    (find_all_words t board).Nodup :=
  find_all_words_nodup t board

/-- C6. Whenever `visit` returns (for any board, any in- or out-of-bounds
coordinate, and any visited/accumulator/result state — including the early
pruning returns), the visited matrix and the current-word accumulator are
restored exactly to the values they held on entry. -/
theorem spec_C6 (t : TrieNode) (board : Board) (fuel row col : Nat)
    (st st' : SearchState) (h : visitChk t board fuel row col st = some st') :
    st'.visited = st.visited ∧ st'.current_word = st.current_word :=
  visitChk_frame t board fuel row col st st' h

/-- Witness for C6: a full search step on the `t a r` board records "tar"
and hands back the untouched visited matrix and empty accumulator. -/
theorem spec_C6_witness :
    wC6res.visited = [[false, false, false]] ∧ wC6res.current_word = [] :=
  spec_C6 wTrie wBoard 4 0 0 ⟨[[false, false, false]], [], []⟩ wC6res (by decide)

/-- C7. On a non-empty rectangular board, `find_all_words` and its
recursive `visit` never perform an out-of-bounds board, visited-matrix or
accumulator access: the checked embedding — in which every indexing
operation, `usize` subtraction and `truncate` panics to `none` — returns
exactly the total embedding's result. -/
theorem spec_C7 (t : TrieNode) (board : Board) (hne : board ≠ [])
    (hrect : Rect board = true) :
    find_all_wordsChk t board = some (find_all_words t board) :=
  find_all_wordsChk_eq t board hne hrect

/-- Witness for C7 on the 1×3 board `t a r`. -/
theorem spec_C7_witness :
    find_all_wordsChk wTrie wBoard = some (find_all_words wTrie wBoard) :=
  spec_C7 wTrie wBoard (by decide) (by decide)

/-- C8. Calling `load_dictionary` with a path at which no file exists
leaves the dictionary state unchanged (silent no-op, no error). -/
theorem spec_C8 (fs : RStr → Option RStr) (path : RStr) (dict : TrieNode)
    (h : fs path = none) : load_dictionary fs path dict = dict :=
  load_dictionary_none fs path dict h

/-- Witness for C8 on an empty filesystem. -/
theorem spec_C8_witness : load_dictionary fsNone ['a'] TrieNode.new = TrieNode.new :=
  spec_C8 fsNone ['a'] TrieNode.new rfl

/-- C9 (amended). For an existing dictionary file with ASCII contents
(the scope on which the embedding's character-wise lowercasing coincides
with Rust's full-Unicode `str::to_lowercase`), `load_dictionary` splits
the contents on newlines and inserts every line — including empty lines —
lowercased, as a word: afterwards a word is in the dictionary iff it was
before or it is one of the lowercased lines. -/
theorem spec_C9 (fs : RStr → Option RStr) (path : RStr) (dict : TrieNode)
    (contents : RStr) (v : RStr)
    (_hascii : ∀ c ∈ contents, c.toNat < 128)
    (h : fs path = some contents) :
    ((load_dictionary fs path dict).is_word v = true ↔
      dict.is_word v = true ∨ v ∈ (rustLines contents).map lowerStr) := by
  rw [load_dictionary_some_is_word fs path dict contents v h]
  rw [Bool.or_eq_true]
  rw [decide_eq_true_iff]

/-- Witness for C9: after loading the file "a\n\nb", "a" is a word. -/
theorem spec_C9_witness :
    (load_dictionary c9fs ['w'] TrieNode.new).is_word ['a'] = true :=
  (spec_C9 c9fs ['w'] TrieNode.new ['a', '\n', '\n', 'b'] ['a']
      (by decide) (by decide)).mpr
    (Or.inr (by decide))

/-- Counterexample to C9 as stated ("inserts each non-empty line — and
only the non-empty lines"): loading "a\n\nb" inserts the empty second line
too, making the empty string a dictionary word, which the spec-faithful
loader (`load_dictionary_spec`, inserting only non-empty lines) does not. -/
theorem spec_C9_cex :
    TrieNode.is_word (load_dictionary c9fs ['w'] TrieNode.new) [] = true ∧
      TrieNode.is_word (load_dictionary_spec c9fs ['w'] TrieNode.new) [] = false := by
  decide

/-- C10. The output of `solve_words` does not depend on the iteration
order of the hash set of collected words: post-processing any permutation
of the collected word set yields the same sorted sequence, so two
invocations on the same board and dictionary return identical output. -/
theorem spec_C10 (t : TrieNode) (board : Board) (l : List RStr)
    (h : l.Perm (searchWords t board)) :
    postSort l = solve_words t board :=
  postSort_perm_eq l (searchWords t board) h

/-- Witness for C10: handing the two collected words of the `t a r` board
(dictionary {"tar", "rat"}) to the post-processing in the opposite order
yields exactly `solve_words`' output. -/
theorem spec_C10_witness :
    postSort [['r', 'a', 't'], ['t', 'a', 'r']] = solve_words w10Trie wBoard :=
  spec_C10 w10Trie wBoard [['r', 'a', 't'], ['t', 'a', 'r']] (by decide)
